import Mathlib

/-!
Verification development for the dface backend's face-matching and
face-tracking core.

The embedding models `backend/app/services/face_recognition.py`
(`FaceRecognitionService.compare_faces`, `find_best_match`,
`find_all_matches`) and `backend/app/services/face_tracking.py`
(`FaceTrack`, `FaceTrackingService`).

Modelling conventions:
* Python floats are idealised as exact arithmetic: raw numeric data
  (embedding components, timestamps, thresholds) is ℚ, and derived
  quantities that involve square roots (Euclidean norms, combined
  distances, confidences, association scores) live in ℝ.
* `datetime.now()` is modelled by passing an explicit `now : ℚ`
  (seconds) to every operation that reads the clock.
* Track ids are `f"{self.next_track_id}"` in the source, i.e. the
  decimal rendering of a session-local counter; since that rendering is
  injective we model a track id as the counter value itself (ℕ).
* Python dicts (`self.tracks`, `user_confidence_map`) preserve
  insertion order, so they are modelled as lists in insertion order.
* The Redis cache layer is modelled as absent (every lookup is a miss),
  matching the "no cached recognition result is used" reading: on a
  miss the source uses exactly the database values that are passed in
  here as the gallery.
-/

namespace DFace

open Classical

/-- A face embedding: the source stores a 128-element float vector; the
model is a list of exact rationals. -/
abbrev Embedding := List ℚ

/-- Sum of squared componentwise differences, the radicand of
`np.linalg.norm(a - b)` / `face_recognition.face_distance`. -/
def sumSqDiff (a b : Embedding) : ℚ :=
  ((List.zipWith (fun x y => x - y) a b).map (fun x => x * x)).sum

/-- Sum of squares of one vector, the radicand of `np.linalg.norm(a)`. -/
def sumSq (a : Embedding) : ℚ :=
  (a.map (fun x => x * x)).sum

/-- The `np.dot` of two embeddings. -/
def dotProduct (a b : Embedding) : ℚ :=
  (List.zipWith (fun x y => x * y) a b).sum

/-- Euclidean distance `np.linalg.norm(a - b)` between two embeddings. -/
noncomputable def euclidean_distance (a b : Embedding) : ℝ :=
  Real.sqrt ((sumSqDiff a b : ℚ) : ℝ)

/-- Euclidean norm `np.linalg.norm(a)` of one embedding. -/
noncomputable def vecNorm (a : Embedding) : ℝ :=
  Real.sqrt ((sumSq a : ℚ) : ℝ)

/-- The combined distance of `FaceRecognitionService.compare_faces`:
when both vectors have positive norm, `0.7 * euclidean + 0.3 * cosine`
where the cosine distance is `(1 - cosine_similarity) / 2` and
`cosine_similarity` is the dot product of the two normalised vectors,
i.e. `dot a b / (norm a * norm b)`; otherwise the Euclidean distance
alone. -/
noncomputable def combined_distance (known unknown : Embedding) : ℝ :=
  let ed := euclidean_distance known unknown
  if 0 < vecNorm known ∧ 0 < vecNorm unknown then
    let cosine_similarity : ℝ :=
      ((dotProduct known unknown : ℚ) : ℝ) / (vecNorm known * vecNorm unknown)
    let cosine_dist := (1 - cosine_similarity) / 2
    0.7 * ed + 0.3 * cosine_dist
  else
    ed

/-- The piecewise confidence curve of `compare_faces`, before the final
clamp to [0, 1]. -/
noncomputable def rawConfidence (match_threshold d : ℝ) : ℝ :=
  if d < 0.3 then
    0.95 + 0.05 * (0.3 - d) / 0.3
  else if d < 0.5 then
    0.80 + 0.15 * (0.5 - d) / 0.2
  else if d < match_threshold then
    0.70 + 0.10 * (match_threshold - d) / (match_threshold - 0.5)
  else
    max 0 (0.70 - (d - match_threshold) / match_threshold)

/-- Confidence produced by `compare_faces` from the combined distance:
the piecewise curve clamped by `max(0.0, min(1.0, confidence))`. -/
noncomputable def confidence_from_distance (match_threshold d : ℝ) : ℝ :=
  max 0 (min 1 (rawConfidence match_threshold d))

/-- Model of `FaceRecognitionService.compare_faces known unknown` returning
`(is_match, confidence)`, parametrised by the service's
`match_threshold` (`settings.FACE_MATCH_THRESHOLD`, default 0.6). -/
noncomputable def compare_faces (match_threshold : ℝ) (known unknown : Embedding) :
    Bool × ℝ :=
  let d := combined_distance known unknown
  (if d ≤ match_threshold then true else false,
   confidence_from_distance match_threshold d)

/-- One gallery row, modelling a `FaceEmbedding` ORM record joined with
its (active) `User`: the user is identified by `user_id`. -/
structure GalleryEntry where
  user_id : ℕ
  embedding : Embedding

/-- One step of maintaining `user_confidence_map` in `find_best_match`:
a fresh user is appended (Python dict insertion order), an existing
user's stored confidence is replaced only when the new one is strictly
greater. -/
noncomputable def updatePool (pool : List (ℕ × ℝ)) (uid : ℕ) (conf : ℝ) :
    List (ℕ × ℝ) :=
  if ∃ q ∈ pool, q.1 = uid then
    pool.map (fun q => if q.1 = uid ∧ q.2 < conf then (q.1, conf) else q)
  else
    pool ++ [(uid, conf)]

/-- The `user_confidence_map` built by `find_best_match`: for every
gallery entry whose comparison against `unknown` matches, pool the
confidence per user, keeping each user's maximum. -/
noncomputable def buildPool (match_threshold : ℝ) (gallery : List GalleryEntry)
    (unknown : Embedding) : List (ℕ × ℝ) :=
  gallery.foldl
    (fun pool e =>
      let r := compare_faces match_threshold e.embedding unknown
      if r.1 then updatePool pool e.user_id r.2 else pool)
    []

/-- The second loop of `find_best_match`: scan the pooled map for the
user with the highest confidence, starting from `best_match = None`,
`best_confidence = 0.0`, updating on strictly greater confidence. -/
noncomputable def selectBest (pool : List (ℕ × ℝ)) : Option (ℕ × ℝ) :=
  pool.foldl
    (fun best q =>
      match best with
      | none => if 0 < q.2 then some q else none
      | some b => if b.2 < q.2 then some q else some b)
    none

/-- Model of `FaceRecognitionService.find_best_match` (cache misses assumed, see
module conventions): empty gallery returns none immediately; otherwise
pool per-user maximum confidences over matching entries, take the user
with the globally highest pooled confidence, and return it only when
that confidence reaches `confidence_threshold`
(`settings.FACE_CONFIDENCE_THRESHOLD`, default 0.85). -/
noncomputable def find_best_match (match_threshold confidence_threshold : ℝ)
    (gallery : List GalleryEntry) (unknown : Embedding) : Option (ℕ × ℝ) :=
  if gallery = [] then none
  else
    match selectBest (buildPool match_threshold gallery unknown) with
    | none => none
    | some (u, c) => if confidence_threshold ≤ c then some (u, c) else none

/-- The list of matching `(user_id, confidence)` pairs collected by
`find_all_matches` before sorting. -/
noncomputable def matchList (match_threshold : ℝ) (gallery : List GalleryEntry)
    (unknown : Embedding) : List (ℕ × ℝ) :=
  gallery.filterMap
    (fun e =>
      let r := compare_faces match_threshold e.embedding unknown
      if r.1 then some (e.user_id, r.2) else none)

/-- Model of `FaceRecognitionService.find_all_matches`: collect all matching
entries (one per gallery row, not deduplicated by user), sort by
confidence descending (`matches.sort(key=..., reverse=True)`), and
truncate to `top_k`. -/
noncomputable def find_all_matches (match_threshold : ℝ)
    (gallery : List GalleryEntry) (unknown : Embedding) (top_k : ℕ) :
    List (ℕ × ℝ) :=
  if gallery = [] then []
  else
    ((matchList match_threshold gallery unknown).mergeSort
        (fun a b => decide (b.2 ≤ a.2))).take top_k

/-- A bounding box in the source's `(top, right, bottom, left)` pixel
order. -/
structure Bbox where
  top : ℤ
  right : ℤ
  bottom : ℤ
  left : ℤ
deriving DecidableEq

/-- Model of `FaceTrackingService._calculate_iou`, exact over ℚ: intersection
area over union area of two axis-aligned boxes, 0 when the intersection
is empty (or the union area is 0). -/
def calculate_iou (bbox1 bbox2 : Bbox) : ℚ :=
  let inter_top := max bbox1.top bbox2.top
  let inter_left := max bbox1.left bbox2.left
  let inter_bottom := min bbox1.bottom bbox2.bottom
  let inter_right := min bbox1.right bbox2.right
  if inter_bottom ≤ inter_top ∨ inter_right ≤ inter_left then 0
  else
    let inter_area := (inter_bottom - inter_top) * (inter_right - inter_left)
    let area1 := (bbox1.bottom - bbox1.top) * (bbox1.right - bbox1.left)
    let area2 := (bbox2.bottom - bbox2.top) * (bbox2.right - bbox2.left)
    let union_area := area1 + area2 - inter_area
    if union_area = 0 then 0 else (inter_area : ℚ) / (union_area : ℚ)

/-- A tracked face, modelling class `FaceTrack`. `track_id` is the
session counter value (rendered as a decimal string in the source). -/
structure FaceTrack where
  track_id : ℕ
  face_encoding : Embedding
  bbox : Bbox
  user_id : Option ℕ
  user_name : Option String
  confidence : ℚ
  first_seen : ℚ
  last_seen : ℚ
  frame_count : ℕ
  is_lost : Bool
deriving DecidableEq

/-- Model of `FaceTrack.__init__`: a fresh track, `first_seen = last_seen = now`,
`frame_count = 1`, not lost. -/
def FaceTrack.make (track_id : ℕ) (face_encoding : Embedding) (bbox : Bbox)
    (user_id : Option ℕ) (user_name : Option String) (confidence : ℚ)
    (now : ℚ) : FaceTrack :=
  { track_id := track_id
    face_encoding := face_encoding
    bbox := bbox
    user_id := user_id
    user_name := user_name
    confidence := confidence
    first_seen := now
    last_seen := now
    frame_count := 1
    is_lost := false }

/-- Model of `FaceTrack.update`: refresh bbox and `last_seen`, bump
`frame_count`, clear `is_lost`; overwrite the identity fields exactly
when the passed `user_id` is not `None`. -/
def FaceTrack.update (t : FaceTrack) (bbox : Bbox) (user_id : Option ℕ)
    (user_name : Option String) (confidence : ℚ) (now : ℚ) : FaceTrack :=
  let t1 := { t with
    bbox := bbox
    last_seen := now
    frame_count := t.frame_count + 1
    is_lost := false }
  if user_id.isSome then
    { t1 with user_id := user_id, user_name := user_name, confidence := confidence }
  else
    t1

/-- Model of `FaceTrack.mark_lost`. -/
def FaceTrack.mark_lost (t : FaceTrack) : FaceTrack :=
  { t with is_lost := true }

/-- The per-face recognition result handed to `update_tracks`:
`(user_id, user_name, confidence)`. -/
abbrev UserInfo := Option ℕ × Option String × ℚ

/-- Mutable state of class `FaceTrackingService`. `tracks` models the
`Dict[str, FaceTrack]` keyed by track id, in insertion order. -/
structure FaceTrackingService where
  tracks : List FaceTrack
  next_track_id : ℕ
  max_track_age : ℚ
  max_time_since_last_seen : ℚ
  iou_threshold : ℚ

/-- Model of `FaceTrackingService.__init__` (defaults 6.0, 1.0, 0.3 in the
source): no tracks, counter at 1. -/
def FaceTrackingService.make (max_track_age max_time_since_last_seen iou_threshold : ℚ) :
    FaceTrackingService :=
  { tracks := []
    next_track_id := 1
    max_track_age := max_track_age
    max_time_since_last_seen := max_time_since_last_seen
    iou_threshold := iou_threshold }

/-- The inner loop of `update_tracks` for one detection: scan the
current tracks, skipping any track whose `is_lost` flag is set, score
the rest by `0.6 * iou + 0.4 * 1 / (1 + encoding_distance)`, and keep
the best track whose score strictly exceeds both the best so far
(starting at 0.0) and `iou_threshold`. Returns the chosen track's id
and its score. -/
noncomputable def find_best_track (iou_threshold : ℚ) (tracks : List FaceTrack)
    (bbox : Bbox) (encoding : Embedding) : Option ℕ × ℝ :=
  tracks.foldl
    (fun best t =>
      if t.is_lost then best
      else
        let iou := calculate_iou bbox t.bbox
        let encoding_dist := euclidean_distance encoding t.face_encoding
        let encoding_similarity : ℝ := 1 / (1 + encoding_dist)
        let score : ℝ := (iou : ℝ) * 0.6 + encoding_similarity * 0.4
        if best.2 < score ∧ ((iou_threshold : ℚ) : ℝ) < score then (some t.track_id, score)
        else best)
    (none, 0)

/-- The "update or create" step of `update_tracks` for one enumerated
detection: on a match, update the matched track in place (identity
passed through exactly when `recognized_users[i]` is a tuple); otherwise
append a brand-new track carrying the next counter value and bump the
counter. -/
noncomputable def process_detection (iou_threshold : ℚ) (now : ℚ)
    (acc : List FaceTrack × ℕ) (bbox : Bbox) (encoding : Embedding)
    (user_info : Option UserInfo) : List FaceTrack × ℕ :=
  match (find_best_track iou_threshold acc.1 bbox encoding).1 with
  | some tid =>
      (acc.1.map (fun t =>
        if t.track_id = tid then
          match user_info with
          | some (uid, uname, conf) => t.update bbox uid uname conf now
          | none => t.update bbox none none 0 now
        else t),
       acc.2)
  | none =>
      let info := user_info.getD (none, none, 0)
      (acc.1 ++ [FaceTrack.make acc.2 encoding bbox info.1 info.2.1 info.2.2 now],
       acc.2 + 1)

/-- Model of `FaceTrackingService._cleanup_tracks`: drop every track whose age
exceeds `max_track_age`, or which is lost and unseen for longer than
`max_time_since_last_seen`. -/
def cleanup_tracks (max_track_age max_time_since_last_seen now : ℚ)
    (tracks : List FaceTrack) : List FaceTrack :=
  tracks.filter
    (fun t =>
      !(decide (max_track_age < now - t.first_seen) ||
        (t.is_lost && decide (max_time_since_last_seen < now - t.last_seen))))

/-- Model of `FaceTrackingService.update_tracks`: default the recognition list to
all-`None`, mark every existing track lost, run the per-detection
update/create loop over `zip(face_locations, face_encodings)` (indexing
`recognized_users[i]` when in range), clean up, and return the non-lost
tracks. Returns the new service state together with the returned list. -/
noncomputable def update_tracks (st : FaceTrackingService) (now : ℚ)
    (face_locations : List Bbox) (face_encodings : List Embedding)
    (recognized_users : Option (List (Option UserInfo))) :
    FaceTrackingService × List FaceTrack :=
  let ru := recognized_users.getD (List.replicate face_locations.length none)
  let marked := st.tracks.map FaceTrack.mark_lost
  let stepped := ((face_locations.zip face_encodings).enum).foldl
    (fun acc det =>
      process_detection st.iou_threshold now acc det.2.1 det.2.2 (ru.getD det.1 none))
    (marked, st.next_track_id)
  let cleaned := cleanup_tracks st.max_track_age st.max_time_since_last_seen now stepped.1
  ({ st with tracks := cleaned, next_track_id := stepped.2 },
   cleaned.filter (fun t => !t.is_lost))

/-- Model of `FaceTrackingService.get_active_tracks`: clean up, then return the
non-lost tracks. Returns the new service state together with the list. -/
def get_active_tracks (st : FaceTrackingService) (now : ℚ) :
    FaceTrackingService × List FaceTrack :=
  let cleaned := cleanup_tracks st.max_track_age st.max_time_since_last_seen now st.tracks
  ({ st with tracks := cleaned }, cleaned.filter (fun t => !t.is_lost))

/-- Model of `FaceTrackingService.reset`: clear the tracks and restart the
counter at 1. -/
def reset (st : FaceTrackingService) : FaceTrackingService :=
  { st with tracks := [], next_track_id := 1 }

/-- Tracker states reachable by the service's public API from a fresh
instance: construction, `update_tracks`, `get_active_tracks`, `reset`. -/
inductive Reachable : FaceTrackingService → Prop
  | mk_service (max_track_age max_time_since_last_seen iou_threshold : ℚ) :
      Reachable (FaceTrackingService.make max_track_age max_time_since_last_seen iou_threshold)
  | update (st : FaceTrackingService) (now : ℚ) (locs : List Bbox)
      (encs : List Embedding) (rec : Option (List (Option UserInfo))) :
      Reachable st → Reachable (update_tracks st now locs encs rec).1
  | active (st : FaceTrackingService) (now : ℚ) :
      Reachable st → Reachable (get_active_tracks st now).1
  | reset_state (st : FaceTrackingService) : Reachable st → Reachable (reset st)

/-- A reachable tracker state together with the list of track ids
allocated since the last reset, in allocation order. Each
`update_tracks` call consumes exactly the counter values from the old
`next_track_id` (inclusive) to the new one (exclusive) — every track
creation takes the current counter as its id and bumps the counter by
one — so the call appends `List.range' old_next (new_next - old_next)`;
`get_active_tracks` allocates nothing, and `reset` starts an empty
history. -/
inductive ReachableAlloc : FaceTrackingService → List ℕ → Prop
  | mk_service (max_track_age max_time_since_last_seen iou_threshold : ℚ) :
      ReachableAlloc
        (FaceTrackingService.make max_track_age max_time_since_last_seen iou_threshold) []
  | update (st : FaceTrackingService) (now : ℚ) (locs : List Bbox)
      (encs : List Embedding) (rec : Option (List (Option UserInfo)))
      (alloc : List ℕ) :
      ReachableAlloc st alloc →
      ReachableAlloc (update_tracks st now locs encs rec).1
        (alloc ++ List.range' st.next_track_id
          ((update_tracks st now locs encs rec).1.next_track_id - st.next_track_id))
  | active (st : FaceTrackingService) (now : ℚ) (alloc : List ℕ) :
      ReachableAlloc st alloc → ReachableAlloc (get_active_tracks st now).1 alloc
  | reset_state (st : FaceTrackingService) (alloc : List ℕ) :
      ReachableAlloc st alloc → ReachableAlloc (reset st) []

/-- A rational point strictly inside a box (recall the
`(top, right, bottom, left)` field order). -/
def inInterior (b : Bbox) (y x : ℚ) : Prop :=
  (b.top : ℚ) < y ∧ y < (b.bottom : ℚ) ∧ (b.left : ℚ) < x ∧ x < (b.right : ℚ)

/-- Two boxes are disjoint when no point lies strictly inside both. -/
def interiorsDisjoint (b1 b2 : Bbox) : Prop :=
  ∀ y x : ℚ, ¬(inInterior b1 y x ∧ inInterior b2 y x)

/-- A box with positive area: its sides are positively oriented. -/
def posArea (b : Bbox) : Prop :=
  b.top < b.bottom ∧ b.left < b.right

/-- Spec-side notion for `find_best_match`: the confidences of the
gallery entries of user `u` whose comparison against `unknown`
matches. -/
noncomputable def matching_confidences (match_threshold : ℝ)
    (gallery : List GalleryEntry) (unknown : Embedding) (u : ℕ) : List ℝ :=
  gallery.filterMap
    (fun e =>
      if e.user_id = u ∧ (compare_faces match_threshold e.embedding unknown).1 = true then
        some (compare_faces match_threshold e.embedding unknown).2
      else none)

/-- Spec-side notion: user `u` owns at least one gallery entry whose
comparison against `unknown` has `is_match = true`. -/
def has_matching_entry (match_threshold : ℝ) (gallery : List GalleryEntry)
    (unknown : Embedding) (u : ℕ) : Prop :=
  ∃ e ∈ gallery, e.user_id = u ∧ (compare_faces match_threshold e.embedding unknown).1 = true

/-- Spec-side pooled confidence of user `u`: the maximum of `u`'s own
matching confidences (0 when `u` has none; comparison confidences are
clamped to [0, 1], so 0 is a neutral base for the maximum). -/
noncomputable def pooled_confidence (match_threshold : ℝ)
    (gallery : List GalleryEntry) (unknown : Embedding) (u : ℕ) : ℝ :=
  (matching_confidences match_threshold gallery unknown u).foldr max 0

/-- Correctness invariant tying a pooling map (as built by
`find_best_match`) to a per-user list of confidences `f`: keys are
unique, a user is present exactly when it has a confidence, and each
stored value is the maximum of that user's confidences. -/
def PoolInv (f : ℕ → List ℝ) (pool : List (ℕ × ℝ)) : Prop :=
  (pool.map Prod.fst).Nodup ∧
  (∀ u : ℕ, (∃ c, (u, c) ∈ pool) ↔ f u ≠ []) ∧
  (∀ u c, (u, c) ∈ pool → c ∈ f u ∧ ∀ x ∈ f u, x ≤ c)

section Theorems

/-! ### Helper lemmas -/

theorem sumSqDiff_self (e : Embedding) : sumSqDiff e e = 0 := by
  induction e with
  | nil => rfl
  | cons a as ih =>
      simp [sumSqDiff] at ih ⊢

theorem euclidean_distance_self (e : Embedding) : euclidean_distance e e = 0 := by
  simp [euclidean_distance, sumSqDiff_self]

theorem sumSq_nonneg (e : Embedding) : 0 ≤ sumSq e := by
  refine List.sum_nonneg ?_
  intro x hx
  rcases List.mem_map.mp hx with ⟨a, _, rfl⟩
  exact mul_self_nonneg a

theorem dotProduct_self (e : Embedding) : dotProduct e e = sumSq e := by
  induction e with
  | nil => rfl
  | cons a as ih => simp [dotProduct, sumSq, List.zipWith] at ih ⊢

theorem vecNorm_sq (e : Embedding) : vecNorm e * vecNorm e = ((sumSq e : ℚ) : ℝ) := by
  have h0 : (0 : ℝ) ≤ ((sumSq e : ℚ) : ℝ) := by exact_mod_cast sumSq_nonneg e
  simpa [vecNorm] using Real.mul_self_sqrt h0

theorem combined_distance_self (e : Embedding) : combined_distance e e = 0 := by
  by_cases h : 0 < vecNorm e ∧ 0 < vecNorm e
  · have hs : (0 : ℝ) < ((sumSq e : ℚ) : ℝ) := by
      have := h.1
      rw [vecNorm] at this
      exact Real.sqrt_pos.mp this
    have hcs : ((dotProduct e e : ℚ) : ℝ) / (vecNorm e * vecNorm e) = 1 := by
      rw [dotProduct_self, vecNorm_sq]
      exact div_self hs.ne'
    simp only [combined_distance, if_pos h, euclidean_distance_self, hcs]
    norm_num
  · simp only [combined_distance, if_neg h, euclidean_distance_self]

/-! ### Claim theorems -/

/-- Claim C10: `FaceTrack.update` leaves `face_encoding`, `first_seen`
and `track_id` unchanged, refreshes `bbox` and `last_seen`, increments
`frame_count` by exactly 1, clears `is_lost`, and overwrites the
identity fields unconditionally exactly when the passed `user_id` is
not `None`. -/
theorem C10_track_update_effect (t : FaceTrack) (bbox : Bbox) (uid : Option ℕ)
    (uname : Option String) (conf : ℚ) (now : ℚ) :
    (t.update bbox uid uname conf now).face_encoding = t.face_encoding ∧
    (t.update bbox uid uname conf now).first_seen = t.first_seen ∧
    (t.update bbox uid uname conf now).track_id = t.track_id ∧
    (t.update bbox uid uname conf now).bbox = bbox ∧
    (t.update bbox uid uname conf now).last_seen = now ∧
    (t.update bbox uid uname conf now).frame_count = t.frame_count + 1 ∧
    (t.update bbox uid uname conf now).is_lost = false ∧
    (t.update bbox uid uname conf now).user_id = (if uid.isSome then uid else t.user_id) ∧
    (t.update bbox uid uname conf now).user_name = (if uid.isSome then uname else t.user_name) ∧
    (t.update bbox uid uname conf now).confidence = (if uid.isSome then conf else t.confidence) := by
  cases h : uid.isSome <;> simp [FaceTrack.update, h]

/-- Claim C7: `_calculate_iou` returns 1.0 on two identical boxes of
positive area, 0.0 when the boxes' interiors are disjoint, and 0.0 when
either box has non-positive area. -/
theorem C7_iou_identical_disjoint (b1 b2 : Bbox) :
    (b1 = b2 → posArea b1 → calculate_iou b1 b2 = 1) ∧
    (interiorsDisjoint b1 b2 → calculate_iou b1 b2 = 0) ∧
    (¬posArea b1 ∨ ¬posArea b2 → calculate_iou b1 b2 = 0) := by
  refine ⟨?_, ?_, ?_⟩
  · rintro rfl ⟨ht, hl⟩
    have harea : (0 : ℤ) < (b1.bottom - b1.top) * (b1.right - b1.left) :=
      mul_pos (by omega) (by omega)
    have hone : (b1.bottom - b1.top) * (b1.right - b1.left) +
        (b1.bottom - b1.top) * (b1.right - b1.left) -
        (b1.bottom - b1.top) * (b1.right - b1.left) =
        (b1.bottom - b1.top) * (b1.right - b1.left) := by ring
    simp only [calculate_iou, max_self, min_self]
    rw [if_neg (by omega), hone, if_neg harea.ne']
    exact div_self (Int.cast_ne_zero.mpr harea.ne')
  · intro hd
    have hcond : min b1.bottom b2.bottom ≤ max b1.top b2.top ∨
        min b1.right b2.right ≤ max b1.left b2.left := by
      by_contra hc
      push_neg at hc
      obtain ⟨hy, hx⟩ := hc
      set y : ℚ := (((max b1.top b2.top : ℤ) : ℚ) + ((min b1.bottom b2.bottom : ℤ) : ℚ)) / 2 with hydef
      set x : ℚ := (((max b1.left b2.left : ℤ) : ℚ) + ((min b1.right b2.right : ℤ) : ℚ)) / 2 with hxdef
      have hyq : ((max b1.top b2.top : ℤ) : ℚ) < ((min b1.bottom b2.bottom : ℤ) : ℚ) := by
        exact_mod_cast hy
      have hxq : ((max b1.left b2.left : ℤ) : ℚ) < ((min b1.right b2.right : ℤ) : ℚ) := by
        exact_mod_cast hx
      have hmaxt1 : ((b1.top : ℤ) : ℚ) ≤ ((max b1.top b2.top : ℤ) : ℚ) := by
        exact_mod_cast le_max_left b1.top b2.top
      have hmaxt2 : ((b2.top : ℤ) : ℚ) ≤ ((max b1.top b2.top : ℤ) : ℚ) := by
        exact_mod_cast le_max_right b1.top b2.top
      have hminb1 : ((min b1.bottom b2.bottom : ℤ) : ℚ) ≤ ((b1.bottom : ℤ) : ℚ) := by
        exact_mod_cast min_le_left b1.bottom b2.bottom
      have hminb2 : ((min b1.bottom b2.bottom : ℤ) : ℚ) ≤ ((b2.bottom : ℤ) : ℚ) := by
        exact_mod_cast min_le_right b1.bottom b2.bottom
      have hmaxl1 : ((b1.left : ℤ) : ℚ) ≤ ((max b1.left b2.left : ℤ) : ℚ) := by
        exact_mod_cast le_max_left b1.left b2.left
      have hmaxl2 : ((b2.left : ℤ) : ℚ) ≤ ((max b1.left b2.left : ℤ) : ℚ) := by
        exact_mod_cast le_max_right b1.left b2.left
      have hminr1 : ((min b1.right b2.right : ℤ) : ℚ) ≤ ((b1.right : ℤ) : ℚ) := by
        exact_mod_cast min_le_left b1.right b2.right
      have hminr2 : ((min b1.right b2.right : ℤ) : ℚ) ≤ ((b2.right : ℤ) : ℚ) := by
        exact_mod_cast min_le_right b1.right b2.right
      exact hd y x ⟨⟨by rw [hydef]; linarith, by rw [hydef]; linarith,
          by rw [hxdef]; linarith, by rw [hxdef]; linarith⟩,
        ⟨by rw [hydef]; linarith, by rw [hydef]; linarith,
          by rw [hxdef]; linarith, by rw [hxdef]; linarith⟩⟩
    simp only [calculate_iou]
    rw [if_pos hcond]
  · intro h
    have hcond : min b1.bottom b2.bottom ≤ max b1.top b2.top ∨
        min b1.right b2.right ≤ max b1.left b2.left := by
      rcases h with h | h <;> rw [posArea] at h <;> push_neg at h <;>
        rcases le_or_lt b1.bottom b1.top with hb | hb <;>
        rcases le_or_lt b2.bottom b2.top with hb2 | hb2 <;>
        first
          | (left; omega)
          | (right; omega)
    simp only [calculate_iou]
    rw [if_pos hcond]

/-- Claim C7 witness: concrete boxes. -/
theorem C7_iou_identical_disjoint_witness :
    calculate_iou ⟨0, 10, 10, 0⟩ ⟨0, 10, 10, 0⟩ = 1 ∧
    calculate_iou ⟨0, 10, 10, 0⟩ ⟨20, 30, 30, 20⟩ = 0 ∧
    calculate_iou ⟨5, 10, 5, 0⟩ ⟨0, 10, 10, 0⟩ = 0 := by
  refine ⟨(C7_iou_identical_disjoint ⟨0, 10, 10, 0⟩ ⟨0, 10, 10, 0⟩).1 rfl (by constructor <;> decide),
    (C7_iou_identical_disjoint ⟨0, 10, 10, 0⟩ ⟨20, 30, 30, 20⟩).2.1 ?_,
    (C7_iou_identical_disjoint ⟨5, 10, 5, 0⟩ ⟨0, 10, 10, 0⟩).2.2 (Or.inl ?_)⟩
  · intro y x hin
    rcases hin with ⟨⟨_, h1, _, _⟩, ⟨h2, _, _, _⟩⟩
    norm_num at h1 h2
    linarith
  · rw [posArea]
    push_neg
    intro h
    norm_num at h

/-- Claim C3: comparing an embedding with itself yields a combined
distance of 0, hence `is_match = true` (for any nonnegative match
threshold, in particular the configured default 0.6) and confidence
exactly 1.0 after clamping, which is in the top band (at least 0.95). -/
theorem C3_compare_faces_self (mt : ℝ) (e : Embedding) (h : 0 ≤ mt) :
    compare_faces mt e e = (true, 1) ∧ (0.95 : ℝ) ≤ (compare_faces mt e e).2 := by
  have hc : combined_distance e e = 0 := combined_distance_self e
  have hconf : confidence_from_distance mt 0 = 1 := by
    rw [confidence_from_distance, rawConfidence, if_pos (by norm_num : (0 : ℝ) < 0.3)]
    norm_num
  constructor
  · simp only [compare_faces, hc, if_pos h, hconf]
  · simp only [compare_faces, hc, hconf]
    norm_num

/-- Claim C3 witness at the configured default threshold 0.6 and a
concrete embedding. -/
theorem C3_compare_faces_self_witness :
    compare_faces 0.6 [1, 2, 3] [1, 2, 3] = (true, 1) ∧
    (0.95 : ℝ) ≤ (compare_faces 0.6 [1, 2, 3] [1, 2, 3]).2 :=
  C3_compare_faces_self 0.6 [1, 2, 3] (by norm_num)

/-- Claim C6: when either embedding has zero Euclidean norm, the cosine
term is skipped, the combined distance is the Euclidean distance alone,
and `compare_faces` still returns a normal `(is_match, confidence)`
pair computed from that distance. -/
theorem C6_zero_norm_fallback (mt : ℝ) (e1 e2 : Embedding)
    (h : vecNorm e1 = 0 ∨ vecNorm e2 = 0) :
    combined_distance e1 e2 = euclidean_distance e1 e2 ∧
    compare_faces mt e1 e2 =
      (if euclidean_distance e1 e2 ≤ mt then true else false,
       confidence_from_distance mt (euclidean_distance e1 e2)) := by
  have hno : ¬(0 < vecNorm e1 ∧ 0 < vecNorm e2) := by
    rintro ⟨h1, h2⟩
    rcases h with h | h
    · rw [h] at h1; exact lt_irrefl 0 h1
    · rw [h] at h2; exact lt_irrefl 0 h2
  have hcd : combined_distance e1 e2 = euclidean_distance e1 e2 := by
    simp only [combined_distance, if_neg hno]
  exact ⟨hcd, by simp only [compare_faces, hcd]⟩

/-- Claim C6 witness: the zero vector against a nonzero embedding. -/
theorem C6_zero_norm_fallback_witness :
    combined_distance [0, 0] [1] = euclidean_distance [0, 0] [1] ∧
    compare_faces 0.6 [0, 0] [1] =
      (if euclidean_distance [0, 0] [1] ≤ 0.6 then true else false,
       confidence_from_distance 0.6 (euclidean_distance [0, 0] [1])) :=
  C6_zero_norm_fallback 0.6 [0, 0] [1]
    (Or.inl (by simp [vecNorm, sumSq]))

theorem rawConfidence_le_of_ge_03 (mt d : ℝ) (hmt : (0.5 : ℝ) < mt)
    (h : (0.3 : ℝ) ≤ d) : rawConfidence mt d ≤ 0.95 := by
  rw [rawConfidence]
  split_ifs with h1 h2 h3
  · linarith
  · have hq : 0.15 * (0.5 - d) / 0.2 ≤ 0.15 := by
      rw [div_le_iff (by norm_num : (0 : ℝ) < 0.2)]
      linarith
    linarith
  · have hq : 0.10 * (mt - d) / (mt - 0.5) ≤ 0.10 := by
      rw [div_le_iff (by linarith : (0 : ℝ) < mt - 0.5)]
      linarith
    linarith
  · have hq : (0 : ℝ) ≤ (d - mt) / mt := div_nonneg (by linarith) (by linarith)
    exact max_le (by norm_num) (by linarith)

theorem rawConfidence_le_of_ge_05 (mt d : ℝ) (hmt : (0.5 : ℝ) < mt)
    (h : (0.5 : ℝ) ≤ d) : rawConfidence mt d ≤ 0.80 := by
  rw [rawConfidence]
  split_ifs with h1 h2 h3
  · linarith
  · linarith
  · have hq : 0.10 * (mt - d) / (mt - 0.5) ≤ 0.10 := by
      rw [div_le_iff (by linarith : (0 : ℝ) < mt - 0.5)]
      linarith
    linarith
  · have hq : (0 : ℝ) ≤ (d - mt) / mt := div_nonneg (by linarith) (by linarith)
    exact max_le (by norm_num) (by linarith)

theorem rawConfidence_le_of_ge_mt (mt d : ℝ) (hmt : (0.5 : ℝ) < mt)
    (h : mt ≤ d) : rawConfidence mt d ≤ 0.70 := by
  rw [rawConfidence]
  split_ifs with h1 h2 h3
  · linarith
  · linarith
  · linarith
  · have hq : (0 : ℝ) ≤ (d - mt) / mt := div_nonneg (by linarith) (by linarith)
    exact max_le (by norm_num) (by linarith)

theorem rawConfidence_ge_of_lt_03 (mt d : ℝ) (h : d < (0.3 : ℝ)) :
    (0.95 : ℝ) ≤ rawConfidence mt d := by
  rw [rawConfidence, if_pos h]
  have hq : (0 : ℝ) ≤ 0.05 * (0.3 - d) / 0.3 :=
    div_nonneg (by linarith) (by norm_num)
  linarith

theorem rawConfidence_ge_of_lt_05 (mt d : ℝ) (h : d < (0.5 : ℝ)) :
    (0.80 : ℝ) ≤ rawConfidence mt d := by
  rw [rawConfidence]
  split_ifs with h1 h2
  · have hq : (0 : ℝ) ≤ 0.05 * (0.3 - d) / 0.3 :=
      div_nonneg (by linarith) (by norm_num)
    linarith
  · have hq : (0 : ℝ) ≤ 0.15 * (0.5 - d) / 0.2 :=
      div_nonneg (by linarith) (by norm_num)
    linarith

theorem rawConfidence_ge_of_lt_mt (mt d : ℝ) (hmt : (0.5 : ℝ) < mt)
    (h : d < mt) : (0.70 : ℝ) ≤ rawConfidence mt d := by
  rw [rawConfidence]
  split_ifs with h1 h2 h3
  · have hq : (0 : ℝ) ≤ 0.05 * (0.3 - d) / 0.3 :=
      div_nonneg (by linarith) (by norm_num)
    linarith
  · have hq : (0 : ℝ) ≤ 0.15 * (0.5 - d) / 0.2 :=
      div_nonneg (by linarith) (by norm_num)
    linarith
  · have hq : (0 : ℝ) ≤ 0.10 * (mt - d) / (mt - 0.5) :=
      div_nonneg (by linarith) (by linarith)
    linarith

theorem rawConfidence_antitone (mt : ℝ) (hmt : (0.5 : ℝ) < mt) {d1 d2 : ℝ}
    (h : d1 ≤ d2) : rawConfidence mt d2 ≤ rawConfidence mt d1 := by
  rcases lt_or_le d2 0.3 with h2 | h2
  · rw [rawConfidence, rawConfidence, if_pos h2, if_pos (lt_of_le_of_lt h h2)]
    have key : 0.05 * (0.3 - d2) / 0.3 ≤ 0.05 * (0.3 - d1) / 0.3 :=
      div_le_div_of_nonneg_right (by linarith) (by norm_num)
    linarith
  rcases lt_or_le d2 0.5 with h3 | h3
  · rcases lt_or_le d1 0.3 with h4 | h4
    · exact le_trans (rawConfidence_le_of_ge_03 mt d2 hmt h2)
        (rawConfidence_ge_of_lt_03 mt d1 h4)
    · rw [rawConfidence, rawConfidence, if_neg (not_lt.mpr h2), if_pos h3,
        if_neg (not_lt.mpr h4), if_pos (lt_of_le_of_lt h h3)]
      have key : 0.15 * (0.5 - d2) / 0.2 ≤ 0.15 * (0.5 - d1) / 0.2 :=
        div_le_div_of_nonneg_right (by linarith) (by norm_num)
      linarith
  rcases lt_or_le d2 mt with h5 | h5
  · rcases lt_or_le d1 0.5 with h6 | h6
    · exact le_trans (rawConfidence_le_of_ge_05 mt d2 hmt h3)
        (rawConfidence_ge_of_lt_05 mt d1 h6)
    · rw [rawConfidence, rawConfidence, if_neg (show ¬d2 < 0.3 by linarith),
        if_neg (show ¬d2 < 0.5 by linarith), if_pos h5,
        if_neg (show ¬d1 < 0.3 by linarith), if_neg (show ¬d1 < 0.5 by linarith),
        if_pos (lt_of_le_of_lt h h5)]
      have key : 0.10 * (mt - d2) / (mt - 0.5) ≤ 0.10 * (mt - d1) / (mt - 0.5) :=
        div_le_div_of_nonneg_right (by linarith) (by linarith)
      linarith
  rcases lt_or_le d1 mt with h6 | h6
  · exact le_trans (rawConfidence_le_of_ge_mt mt d2 hmt h5)
      (rawConfidence_ge_of_lt_mt mt d1 hmt h6)
  · rw [rawConfidence, rawConfidence, if_neg (show ¬d2 < 0.3 by linarith),
      if_neg (show ¬d2 < 0.5 by linarith), if_neg (show ¬d2 < mt by linarith),
      if_neg (show ¬d1 < 0.3 by linarith), if_neg (show ¬d1 < 0.5 by linarith),
      if_neg (show ¬d1 < mt by linarith)]
    have key : (d1 - mt) / mt ≤ (d2 - mt) / mt :=
      div_le_div_of_nonneg_right (by linarith) (by linarith)
    exact max_le_max le_rfl (by linarith)

theorem confidence_from_distance_nonneg (mt d : ℝ) :
    0 ≤ confidence_from_distance mt d :=
  le_max_left 0 _

theorem confidence_from_distance_le_one (mt d : ℝ) :
    confidence_from_distance mt d ≤ 1 :=
  max_le (by norm_num) (min_le_left 1 _)

/-- Claim C4: for any match threshold above 0.5, the confidence that
`compare_faces` derives from the combined distance is non-increasing in
that distance, and the clamped confidence always lies in [0, 1]. -/
theorem C4_confidence_antitone_bounded (mt d1 d2 : ℝ) (known unknown : Embedding)
    (hmt : (0.5 : ℝ) < mt) (h : d1 ≤ d2) :
    (compare_faces mt known unknown).2 =
      confidence_from_distance mt (combined_distance known unknown) ∧
    confidence_from_distance mt d2 ≤ confidence_from_distance mt d1 ∧
    (0 ≤ confidence_from_distance mt d1 ∧ confidence_from_distance mt d1 ≤ 1) ∧
    (0 ≤ (compare_faces mt known unknown).2 ∧ (compare_faces mt known unknown).2 ≤ 1) := by
  refine ⟨rfl, ?_, ⟨confidence_from_distance_nonneg mt d1,
    confidence_from_distance_le_one mt d1⟩, ?_⟩
  · exact max_le_max le_rfl (min_le_min le_rfl (rawConfidence_antitone mt hmt h))
  · exact ⟨confidence_from_distance_nonneg _ _, confidence_from_distance_le_one _ _⟩

/-- Claim C4 witness at the configured default threshold 0.6. -/
theorem C4_confidence_antitone_bounded_witness :
    (compare_faces 0.6 [1] [2]).2 =
      confidence_from_distance 0.6 (combined_distance [1] [2]) ∧
    confidence_from_distance 0.6 0.55 ≤ confidence_from_distance 0.6 0.2 ∧
    (0 ≤ confidence_from_distance 0.6 0.2 ∧ confidence_from_distance 0.6 0.2 ≤ 1) ∧
    (0 ≤ (compare_faces 0.6 [1] [2]).2 ∧ (compare_faces 0.6 [1] [2]).2 ≤ 1) :=
  C4_confidence_antitone_bounded 0.6 0.2 0.55 [1] [2] (by norm_num) (by norm_num)

theorem matchList_mem_iff (mt : ℝ) (gallery : List GalleryEntry) (q : Embedding)
    (p : ℕ × ℝ) :
    p ∈ matchList mt gallery q ↔
      ∃ e ∈ gallery, e.user_id = p.1 ∧ (compare_faces mt e.embedding q).1 = true ∧
        (compare_faces mt e.embedding q).2 = p.2 := by
  rw [matchList, List.mem_filterMap]
  constructor
  · rintro ⟨e, he, hfe⟩
    by_cases hm : (compare_faces mt e.embedding q).1 = true
    · rw [if_pos hm] at hfe
      refine ⟨e, he, ?_, hm, ?_⟩
      · exact congrArg Prod.fst (Option.some.inj hfe)
      · exact congrArg Prod.snd (Option.some.inj hfe)
    · rw [if_neg hm] at hfe
      exact absurd hfe (Option.some_ne_none _).symm
  · rintro ⟨e, he, hu, hm, hc⟩
    exact ⟨e, he, by rw [if_pos hm, hu, hc]⟩

theorem find_all_matches_le : ∀ (a b : ℕ × ℝ),
    ((fun a b : ℕ × ℝ => decide (b.2 ≤ a.2)) a b ||
     (fun a b : ℕ × ℝ => decide (b.2 ≤ a.2)) b a) = true := by
  intro a b
  rcases le_total a.2 b.2 with h | h <;> simp [h]

/-- Claim C5: `find_all_matches` returns only pairs coming from gallery
entries whose comparison matched (one per entry, not deduplicated by
user), sorted by confidence in non-increasing order, never more than
`top_k` of them; an empty gallery yields the empty list, and when
`top_k` covers all matches the result is a permutation of the full
(undeduplicated) match list. -/
theorem C5_find_all_matches (mt : ℝ) (gallery : List GalleryEntry)
    (q : Embedding) (k : ℕ) :
    (∀ p ∈ find_all_matches mt gallery q k,
       ∃ e ∈ gallery, e.user_id = p.1 ∧ (compare_faces mt e.embedding q).1 = true ∧
         (compare_faces mt e.embedding q).2 = p.2) ∧
    (find_all_matches mt gallery q k).Sorted (fun a b => b.2 ≤ a.2) ∧
    (find_all_matches mt gallery q k).length ≤ k ∧
    (gallery = [] → find_all_matches mt gallery q k = []) ∧
    ((matchList mt gallery q).length ≤ k →
       (find_all_matches mt gallery q k).Perm (matchList mt gallery q)) := by
  by_cases hg : gallery = []
  · subst hg
    refine ⟨?_, ?_, ?_, fun _ => rfl, ?_⟩
    · intro p hp
      simp [find_all_matches] at hp
    · simp [find_all_matches]
    · simp [find_all_matches]
    · intro _
      simp [find_all_matches, matchList]
  · have hunfold : find_all_matches mt gallery q k =
        ((matchList mt gallery q).mergeSort (fun a b => decide (b.2 ≤ a.2))).take k := by
      rw [find_all_matches, if_neg hg]
    refine ⟨?_, ?_, ?_, fun h => absurd h hg, ?_⟩
    · intro p hp
      rw [hunfold] at hp
      have hp2 : p ∈ (matchList mt gallery q).mergeSort (fun a b => decide (b.2 ≤ a.2)) :=
        List.Sublist.mem hp (List.take_sublist k _)
      exact (matchList_mem_iff mt gallery q p).mp (List.mem_mergeSort.mp hp2)
    · rw [hunfold]
      have hsorted := @List.sorted_mergeSort (ℕ × ℝ)
        (fun a b : ℕ × ℝ => decide (b.2 ≤ a.2))
        (fun a b c hab hbc => by
          simp only [decide_eq_true_eq] at hab hbc ⊢
          exact le_trans hbc hab)
        find_all_matches_le
        (matchList mt gallery q)
      have hsorted2 : ((matchList mt gallery q).mergeSort
          (fun a b => decide (b.2 ≤ a.2))).Sorted (fun a b : ℕ × ℝ => b.2 ≤ a.2) :=
        hsorted.imp (fun h => by simpa using h)
      exact hsorted2.sublist (List.take_sublist k _)
    · rw [hunfold]
      simpa using List.length_take_le k _
    · intro hlen
      rw [hunfold]
      have hlen2 : ((matchList mt gallery q).mergeSort
          (fun a b => decide (b.2 ≤ a.2))).length ≤ k := by
        rw [List.length_mergeSort]
        exact hlen
      rw [List.take_of_length_le hlen2]
      exact List.mergeSort_perm _ _

/-- Claim C5 witness on the empty gallery (the implications of the
claim discharged at a concrete input). -/
theorem C5_find_all_matches_witness :
    find_all_matches 0.6 [] [1] 2 = [] ∧
    (find_all_matches 0.6 [] [1] 2).Perm (matchList 0.6 [] [1]) :=
  ⟨(C5_find_all_matches 0.6 [] [1] 2).2.2.2.1 rfl,
   (C5_find_all_matches 0.6 [] [1] 2).2.2.2.2 (by simp [matchList])⟩

theorem cauchy_schwarz_list : ∀ a b : List ℚ, (dotProduct a b) ^ 2 ≤ sumSq a * sumSq b := by
  intro a
  induction a with
  | nil => intro b; simp [dotProduct, sumSq]
  | cons x xs ih =>
      intro b
      cases b with
      | nil => simp [dotProduct, sumSq, List.zipWith]
      | cons y ys =>
          have h := ih ys
          have hA := sumSq_nonneg xs
          have hB := sumSq_nonneg ys
          simp only [dotProduct, sumSq, List.zipWith_cons_cons, List.map_cons,
            List.sum_cons] at h hA hB ⊢
          rcases eq_or_lt_of_le hA with hA0 | hA0
          · have hD : ((List.zipWith (fun x y => x * y) xs ys).sum) = 0 := by
              have hsq : ((List.zipWith (fun x y => x * y) xs ys).sum) ^ 2 ≤ 0 := by
                calc ((List.zipWith (fun x y => x * y) xs ys).sum) ^ 2
                    ≤ (xs.map (fun x => x * x)).sum * (ys.map (fun x => x * x)).sum := h
                  _ = 0 * (ys.map (fun x => x * x)).sum := by rw [← hA0]
                  _ = 0 := by ring
              exact (pow_eq_zero_iff (two_ne_zero)).mp
                (le_antisymm hsq (sq_nonneg _))
            rw [hD, ← hA0]
            nlinarith [mul_nonneg (mul_self_nonneg x) hB]
          · nlinarith [sq_nonneg (x * (List.zipWith (fun x y => x * y) xs ys).sum -
                (xs.map (fun x => x * x)).sum * y),
              mul_nonneg (add_nonneg (mul_self_nonneg x) hA)
                (sub_nonneg.mpr h)]

theorem cosine_similarity_le_one (a b : Embedding) (ha : 0 < vecNorm a)
    (hb : 0 < vecNorm b) :
    ((dotProduct a b : ℚ) : ℝ) / (vecNorm a * vecNorm b) ≤ 1 := by
  rw [div_le_one (mul_pos ha hb)]
  have h2 : ((dotProduct a b : ℚ) : ℝ) ^ 2 ≤ (vecNorm a * vecNorm b) ^ 2 := by
    rw [mul_pow, vecNorm, vecNorm,
      Real.sq_sqrt (by exact_mod_cast sumSq_nonneg a),
      Real.sq_sqrt (by exact_mod_cast sumSq_nonneg b)]
    exact_mod_cast cauchy_schwarz_list a b
  nlinarith [mul_pos ha hb]

theorem combined_distance_nonneg (a b : Embedding) : 0 ≤ combined_distance a b := by
  by_cases h : 0 < vecNorm a ∧ 0 < vecNorm b
  · have hcs := cosine_similarity_le_one a b h.1 h.2
    have hed := Real.sqrt_nonneg ((sumSqDiff a b : ℚ) : ℝ)
    simp only [combined_distance, if_pos h]
    rw [euclidean_distance] at *
    linarith
  · simp only [combined_distance, if_neg h]
    exact Real.sqrt_nonneg _

theorem confidence_ge_of_le_mt (mt d : ℝ) (hd0 : 0 ≤ d) (hdm : d ≤ mt) :
    (0.7 : ℝ) ≤ confidence_from_distance mt d := by
  have hraw : (0.7 : ℝ) ≤ rawConfidence mt d := by
    rw [rawConfidence]
    split_ifs with h1 h2 h3
    · have hq : (0 : ℝ) ≤ 0.05 * (0.3 - d) / 0.3 :=
        div_nonneg (by linarith) (by norm_num)
      linarith
    · have hq : (0 : ℝ) ≤ 0.15 * (0.5 - d) / 0.2 :=
        div_nonneg (by linarith) (by norm_num)
      linarith
    · have hq : (0 : ℝ) ≤ 0.10 * (mt - d) / (mt - 0.5) :=
        div_nonneg (by linarith) (by linarith)
      linarith
    · have hdm2 : d = mt := le_antisymm hdm (not_lt.mp h3)
      rw [hdm2, sub_self, zero_div, sub_zero]
      norm_num [le_max_iff]
  calc (0.7 : ℝ) ≤ min 1 (rawConfidence mt d) := le_min (by norm_num) hraw
    _ ≤ confidence_from_distance mt d := le_max_right 0 _

theorem compare_matched_conf_ge (mt : ℝ) (known unknown : Embedding)
    (hm : (compare_faces mt known unknown).1 = true) :
    (0.7 : ℝ) ≤ (compare_faces mt known unknown).2 := by
  have hd0 := combined_distance_nonneg known unknown
  by_cases hdm : combined_distance known unknown ≤ mt
  · exact confidence_ge_of_le_mt mt _ hd0 hdm
  · exfalso
    simp only [compare_faces, if_neg hdm] at hm
    exact Bool.false_ne_true hm

theorem PoolInv_congr {f g : ℕ → List ℝ} {pool : List (ℕ × ℝ)}
    (h : ∀ u, f u = g u) : PoolInv f pool → PoolInv g pool := by
  rintro ⟨h1, h2, h3⟩
  exact ⟨h1, fun u => (h u) ▸ h2 u, fun u c hc => (h u) ▸ h3 u c hc⟩

theorem PoolInv_nil : PoolInv (fun _ => []) [] :=
  ⟨List.nodup_nil,
   fun u => ⟨fun ⟨_, hc⟩ => absurd hc (List.not_mem_nil _), fun h => absurd rfl h⟩,
   fun _ c hc => absurd hc (List.not_mem_nil (_, c))⟩

theorem updatePool_inv (f : ℕ → List ℝ) (pool : List (ℕ × ℝ)) (uid : ℕ) (conf : ℝ)
    (hinv : PoolInv f pool) :
    PoolInv (fun u => if u = uid then f u ++ [conf] else f u)
      (updatePool pool uid conf) := by
  obtain ⟨hnd, hiff, hmax⟩ := hinv
  rw [updatePool]
  by_cases hmem : ∃ q ∈ pool, q.1 = uid
  · rw [if_pos hmem]
    have hfst : ∀ q : ℕ × ℝ,
        ((fun q : ℕ × ℝ => if q.1 = uid ∧ q.2 < conf then (q.1, conf) else q) q).1 = q.1 := by
      intro q
      by_cases h : q.1 = uid ∧ q.2 < conf <;> simp [h]
    have hkeys : (pool.map
        (fun q : ℕ × ℝ => if q.1 = uid ∧ q.2 < conf then (q.1, conf) else q)).map Prod.fst =
        pool.map Prod.fst := by
      rw [List.map_map]
      exact List.map_congr_left (fun q _ => hfst q)
    refine ⟨by rw [hkeys]; exact hnd, ?_, ?_⟩
    · intro u
      constructor
      · rintro ⟨c, hc⟩
        rcases List.mem_map.mp hc with ⟨q, hq, hqe⟩
        have hq1 : q.1 = u := by
          by_cases h : q.1 = uid ∧ q.2 < conf
          · rw [if_pos h] at hqe
            exact congrArg Prod.fst hqe
          · rw [if_neg h] at hqe
            exact congrArg Prod.fst hqe
        have hpoolu : ∃ c0, (u, c0) ∈ pool := ⟨q.2, by rw [← hq1]; simpa using hq⟩
        have hne := (hiff u).mp hpoolu
        by_cases hu : u = uid
        · simp [hu]
        · simpa [hu] using hne
      · intro hne
        by_cases hu : u = uid
        · obtain ⟨q0, hq0, hq01⟩ := hmem
          refine ⟨((fun q : ℕ × ℝ =>
              if q.1 = uid ∧ q.2 < conf then (q.1, conf) else q) q0).2, ?_⟩
          have himg := List.mem_map_of_mem
            (fun q : ℕ × ℝ => if q.1 = uid ∧ q.2 < conf then (q.1, conf) else q) hq0
          have hkey : ((fun q : ℕ × ℝ =>
              if q.1 = uid ∧ q.2 < conf then (q.1, conf) else q) q0).1 = u := by
            rw [hfst q0, hq01, hu]
          rw [← hkey]
          simpa using himg
        · have hne2 : f u ≠ [] := by simpa [hu] using hne
          obtain ⟨c, hc⟩ := (hiff u).mpr hne2
          refine ⟨c, ?_⟩
          have himg : (fun q : ℕ × ℝ =>
              if q.1 = uid ∧ q.2 < conf then (q.1, conf) else q) (u, c) = (u, c) := by
            simp [hu]
          rw [← himg]
          exact List.mem_map_of_mem _ hc
    · intro u c hc
      rcases List.mem_map.mp hc with ⟨q, hq, hqe⟩
      by_cases hcond : q.1 = uid ∧ q.2 < conf
      · rw [if_pos hcond] at hqe
        have h1 : q.1 = u := congrArg Prod.fst hqe
        dsimp only
        have h2 : conf = c := congrArg Prod.snd hqe
        have hu : u = uid := by rw [← h1]; exact hcond.1
        have hqmem : (uid, q.2) ∈ pool := by
          rw [← hcond.1]
          simpa using hq
        obtain ⟨_, hmaxq⟩ := hmax uid q.2 hqmem
        subst h2
        constructor
        · simp [hu]
        · intro x hx
          rw [hu] at hx
          rw [if_pos rfl] at hx
          rcases List.mem_append.mp hx with hx | hx
          · exact le_of_lt (lt_of_le_of_lt (hmaxq x hx) hcond.2)
          · rw [List.mem_singleton.mp hx]
      · rw [if_neg hcond] at hqe
        rw [hqe] at hq
        by_cases hu : u = uid
        · have hq2 : ¬ c < conf := by
            intro hlt
            exact hcond (by rw [hqe]; exact ⟨hu, hlt⟩)
          obtain ⟨hcm, hcmax⟩ := hmax u c hq
          constructor
          · simp [hu]
            left
            rw [← hu]
            exact hcm
          · intro x hx
            rw [hu] at hx
            have hx2 : x ∈ f uid ++ [conf] := by
              have hx3 : x ∈ if uid = uid then f uid ++ [conf] else f uid := hx
              rwa [if_pos rfl] at hx3
            rcases List.mem_append.mp hx2 with hx | hx
            · exact hcmax x (by rw [hu]; exact hx)
            · rw [List.mem_singleton.mp hx]
              exact not_lt.mp hq2
        · obtain ⟨hcm, hcmax⟩ := hmax u c hq
          simp only [if_neg hu]
          exact ⟨hcm, hcmax⟩
  · rw [if_neg hmem]
    have hfnil : f uid = [] := by
      by_contra hne
      obtain ⟨c0, hc0⟩ := (hiff uid).mpr hne
      exact hmem ⟨(uid, c0), hc0, rfl⟩
    refine ⟨?_, ?_, ?_⟩
    · rw [List.map_append]
      simp only [List.map_cons, List.map_nil]
      rw [List.nodup_append]
      refine ⟨hnd, List.nodup_singleton uid, ?_⟩
      intro a ha hb
      rw [List.mem_singleton.mp hb] at ha
      rcases List.mem_map.mp ha with ⟨q, hq, hqe⟩
      exact hmem ⟨q, hq, hqe⟩
    · intro u
      by_cases hu : u = uid
      · subst hu
        constructor
        · intro _
          simp
        · intro _
          exact ⟨conf, List.mem_append_right _ (List.mem_singleton.mpr rfl)⟩
      · constructor
        · rintro ⟨c, hc⟩
          rcases List.mem_append.mp hc with hc | hc
          · simpa [hu] using (hiff u).mp ⟨c, hc⟩
          · exact absurd (congrArg Prod.fst (List.mem_singleton.mp hc)) hu
        · intro hne
          have hne2 : f u ≠ [] := by simpa [hu] using hne
          obtain ⟨c, hc⟩ := (hiff u).mpr hne2
          exact ⟨c, List.mem_append_left _ hc⟩
    · intro u c hc
      rcases List.mem_append.mp hc with hc | hc
      · have hu : u ≠ uid := fun h => hmem ⟨(u, c), hc, h⟩
        simp only [if_neg hu]
        exact hmax u c hc
      · have he := List.mem_singleton.mp hc
        have hu : u = uid := congrArg Prod.fst he
        have hcc : c = conf := congrArg Prod.snd he
        subst hu
        subst hcc
        simp [hfnil]

theorem matching_confidences_cons (mt : ℝ) (q : Embedding) (e : GalleryEntry)
    (gs : List GalleryEntry) (u : ℕ) :
    matching_confidences mt (e :: gs) q u =
      if e.user_id = u ∧ (compare_faces mt e.embedding q).1 = true then
        (compare_faces mt e.embedding q).2 :: matching_confidences mt gs q u
      else matching_confidences mt gs q u := by
  by_cases h : e.user_id = u ∧ (compare_faces mt e.embedding q).1 = true <;>
    simp [matching_confidences, List.filterMap_cons, h]

theorem buildPool_foldl_inv (mt : ℝ) (q : Embedding) :
    ∀ (gs : List GalleryEntry) (f : ℕ → List ℝ) (pool : List (ℕ × ℝ)),
      PoolInv f pool →
      PoolInv (fun u => f u ++ matching_confidences mt gs q u)
        (gs.foldl
          (fun pool e =>
            let r := compare_faces mt e.embedding q
            if r.1 then updatePool pool e.user_id r.2 else pool)
          pool) := by
  intro gs
  induction gs with
  | nil =>
      intro f pool hinv
      simp only [List.foldl_nil]
      exact PoolInv_congr (fun u => by simp [matching_confidences]) hinv
  | cons e gs ih =>
      intro f pool hinv
      by_cases hm : (compare_faces mt e.embedding q).1 = true
      · simp only [List.foldl_cons, hm, if_true]
        have h2 := ih
          (fun u => if u = e.user_id then f u ++ [(compare_faces mt e.embedding q).2] else f u)
          (updatePool pool e.user_id (compare_faces mt e.embedding q).2)
          (updatePool_inv f pool e.user_id _ hinv)
        refine PoolInv_congr ?_ h2
        intro u
        dsimp only
        by_cases hu : u = e.user_id
        · rw [matching_confidences_cons, if_pos hu, if_pos ⟨hu.symm, hm⟩]
          simp
        · rw [matching_confidences_cons, if_neg hu, if_neg (fun hc => hu hc.1.symm)]
      · simp only [List.foldl_cons, hm, if_false]
        refine PoolInv_congr ?_ (ih f pool hinv)
        intro u
        rw [matching_confidences_cons, if_neg (fun hc => hm hc.2)]

theorem buildPool_inv (mt : ℝ) (gallery : List GalleryEntry) (q : Embedding) :
    PoolInv (matching_confidences mt gallery q) (buildPool mt gallery q) := by
  rw [buildPool]
  exact PoolInv_congr (fun u => by simp)
    (buildPool_foldl_inv mt q gallery (fun _ => []) [] PoolInv_nil)

theorem matching_confidences_mem (mt : ℝ) (gallery : List GalleryEntry)
    (q : Embedding) (u : ℕ) (c : ℝ) (hc : c ∈ matching_confidences mt gallery q u) :
    ∃ e ∈ gallery, e.user_id = u ∧ (compare_faces mt e.embedding q).1 = true ∧
      (compare_faces mt e.embedding q).2 = c := by
  rw [matching_confidences] at hc
  rcases List.mem_filterMap.mp hc with ⟨e, he, hfe⟩
  by_cases h : e.user_id = u ∧ (compare_faces mt e.embedding q).1 = true
  · rw [if_pos h] at hfe
    exact ⟨e, he, h.1, h.2, Option.some.inj hfe⟩
  · rw [if_neg h] at hfe
    exact absurd hfe (Option.some_ne_none _).symm

theorem mem_matching_confidences (mt : ℝ) (gallery : List GalleryEntry)
    (q : Embedding) (u : ℕ) (e : GalleryEntry) (he : e ∈ gallery)
    (hu : e.user_id = u) (hm : (compare_faces mt e.embedding q).1 = true) :
    (compare_faces mt e.embedding q).2 ∈ matching_confidences mt gallery q u := by
  rw [matching_confidences]
  exact List.mem_filterMap.mpr ⟨e, he, by rw [if_pos ⟨hu, hm⟩]⟩

theorem has_matching_entry_iff (mt : ℝ) (gallery : List GalleryEntry)
    (q : Embedding) (u : ℕ) :
    has_matching_entry mt gallery q u ↔ matching_confidences mt gallery q u ≠ [] := by
  constructor
  · rintro ⟨e, he, hu, hm⟩
    exact List.ne_nil_of_mem (mem_matching_confidences mt gallery q u e he hu hm)
  · intro hne
    obtain ⟨c, hc⟩ := List.exists_mem_of_ne_nil _ hne
    obtain ⟨e, he, hu, hm, _⟩ := matching_confidences_mem mt gallery q u c hc
    exact ⟨e, he, hu, hm⟩

theorem matching_confidence_ge (mt : ℝ) (gallery : List GalleryEntry)
    (q : Embedding) (u : ℕ) (c : ℝ) (hc : c ∈ matching_confidences mt gallery q u) :
    (0.7 : ℝ) ≤ c := by
  obtain ⟨e, _, _, hm, hce⟩ := matching_confidences_mem mt gallery q u c hc
  rw [← hce]
  exact compare_matched_conf_ge mt e.embedding q hm

theorem foldr_max_le (l : List ℝ) (c : ℝ) (h0 : 0 ≤ c) (h : ∀ x ∈ l, x ≤ c) :
    l.foldr max 0 ≤ c := by
  induction l with
  | nil => exact h0
  | cons x xs ih =>
      exact max_le (h x (List.mem_cons_self x xs))
        (ih (fun y hy => h y (List.mem_cons_of_mem x hy)))

theorem foldr_max_eq (l : List ℝ) (c : ℝ) (h0 : 0 ≤ c) (hmem : c ∈ l)
    (hmax : ∀ x ∈ l, x ≤ c) : l.foldr max 0 = c := by
  induction l with
  | nil => exact absurd hmem (List.not_mem_nil c)
  | cons x xs ih =>
      rcases List.mem_cons.mp hmem with hcx | hcx
      · rw [List.foldr_cons, ← hcx]
        exact max_eq_left
          (foldr_max_le xs c h0 (fun y hy => hmax y (List.mem_cons_of_mem x hy)))
      · rw [List.foldr_cons, ih hcx (fun y hy => hmax y (List.mem_cons_of_mem x hy))]
        exact max_eq_right (hmax x (List.mem_cons_self x xs))

theorem pooled_confidence_of_mem_pool (mt : ℝ) (gallery : List GalleryEntry)
    (q : Embedding) (u : ℕ) (c : ℝ) (hmem : (u, c) ∈ buildPool mt gallery q) :
    pooled_confidence mt gallery q u = c := by
  obtain ⟨hcm, hcmax⟩ := (buildPool_inv mt gallery q).2.2 u c hmem
  have hc0 : (0 : ℝ) ≤ c :=
    le_trans (by norm_num) (matching_confidence_ge mt gallery q u c hcm)
  rw [pooled_confidence]
  exact foldr_max_eq _ c hc0 hcm hcmax

theorem buildPool_pos (mt : ℝ) (gallery : List GalleryEntry) (q : Embedding) :
    ∀ p ∈ buildPool mt gallery q, (0 : ℝ) < p.2 := by
  intro p hp
  obtain ⟨hcm, _⟩ := (buildPool_inv mt gallery q).2.2 p.1 p.2 (by simpa using hp)
  exact lt_of_lt_of_le (by norm_num) (matching_confidence_ge mt gallery q p.1 p.2 hcm)

theorem selectBest_go : ∀ (rest : List (ℕ × ℝ)) (b : ℕ × ℝ),
    ∃ p : ℕ × ℝ, (p = b ∨ p ∈ rest) ∧
      rest.foldl
        (fun best q =>
          match best with
          | none => if 0 < q.2 then some q else none
          | some b => if b.2 < q.2 then some q else some b)
        (some b) = some p ∧
      b.2 ≤ p.2 ∧ ∀ x ∈ rest, x.2 ≤ p.2 := by
  intro rest
  induction rest with
  | nil =>
      intro b
      exact ⟨b, Or.inl rfl, rfl, le_refl _, fun x hx => absurd hx (List.not_mem_nil x)⟩
  | cons x xs ih =>
      intro b
      by_cases hbx : b.2 < x.2
      · obtain ⟨p, hp1, hp2, hp3, hp4⟩ := ih x
        simp only [List.foldl_cons, if_pos hbx]
        refine ⟨p, ?_, hp2, le_trans (le_of_lt hbx) hp3, ?_⟩
        · rcases hp1 with hp1 | hp1
          · exact Or.inr (by rw [hp1]; exact List.mem_cons_self x xs)
          · exact Or.inr (List.mem_cons_of_mem x hp1)
        · intro z hz
          rcases List.mem_cons.mp hz with hz | hz
          · rw [hz]; exact hp3
          · exact hp4 z hz
      · obtain ⟨p, hp1, hp2, hp3, hp4⟩ := ih b
        simp only [List.foldl_cons, if_neg hbx]
        refine ⟨p, ?_, hp2, hp3, ?_⟩
        · rcases hp1 with hp1 | hp1
          · exact Or.inl hp1
          · exact Or.inr (List.mem_cons_of_mem x hp1)
        · intro z hz
          rcases List.mem_cons.mp hz with hz | hz
          · rw [hz]; exact le_trans (not_lt.mp hbx) hp3
          · exact hp4 z hz

theorem selectBest_spec (pool : List (ℕ × ℝ)) (hpos : ∀ p ∈ pool, (0 : ℝ) < p.2)
    (hne : pool ≠ []) :
    ∃ p, p ∈ pool ∧ selectBest pool = some p ∧ ∀ x ∈ pool, x.2 ≤ p.2 := by
  cases pool with
  | nil => exact absurd rfl hne
  | cons x xs =>
      simp only [selectBest, List.foldl_cons,
        if_pos (hpos x (List.mem_cons_self x xs))]
      obtain ⟨p, hp1, hp2, hp3, hp4⟩ := selectBest_go xs x
      refine ⟨p, ?_, hp2, ?_⟩
      · rcases hp1 with hp1 | hp1
        · rw [hp1]; exact List.mem_cons_self x xs
        · exact List.mem_cons_of_mem x hp1
      · intro z hz
        rcases List.mem_cons.mp hz with hz | hz
        · rw [hz]; exact hp3
        · exact hp4 z hz

/-- Claim C2: `find_best_match` (with no cached result) pools per-user
maxima of matching confidences, returns a user achieving the globally
highest pooled confidence together with that confidence when it reaches
the confidence threshold, returns none when nothing matches or the best
pooled confidence is below the threshold, and returns none immediately
on an empty gallery. -/
theorem C2_find_best_match (mt ct : ℝ) (gallery : List GalleryEntry) (q : Embedding) :
    (gallery = [] → find_best_match mt ct gallery q = none) ∧
    (∀ u c, find_best_match mt ct gallery q = some (u, c) →
       has_matching_entry mt gallery q u ∧ pooled_confidence mt gallery q u = c ∧
       (∀ v, has_matching_entry mt gallery q v → pooled_confidence mt gallery q v ≤ c) ∧
       ct ≤ c) ∧
    ((∀ v, ¬has_matching_entry mt gallery q v) → find_best_match mt ct gallery q = none) ∧
    ((∀ v, has_matching_entry mt gallery q v → pooled_confidence mt gallery q v < ct) →
       find_best_match mt ct gallery q = none) ∧
    (∀ u, has_matching_entry mt gallery q u →
       ct ≤ pooled_confidence mt gallery q u →
       (∀ v, has_matching_entry mt gallery q v →
          pooled_confidence mt gallery q v ≤ pooled_confidence mt gallery q u) →
       ∃ w, has_matching_entry mt gallery q w ∧
         pooled_confidence mt gallery q w = pooled_confidence mt gallery q u ∧
         find_best_match mt ct gallery q = some (w, pooled_confidence mt gallery q u)) := by
  by_cases hg : gallery = []
  · have hnone : find_best_match mt ct gallery q = none := by
      rw [find_best_match, if_pos hg]
    refine ⟨fun _ => hnone, ?_, fun _ => hnone, fun _ => hnone, ?_⟩
    · intro u c h
      rw [hnone] at h
      exact Option.noConfusion h
    · intro u hu _ _
      obtain ⟨e, he, _⟩ := hu
      rw [hg] at he
      exact absurd he (List.not_mem_nil e)
  · have hfbm : find_best_match mt ct gallery q =
        match selectBest (buildPool mt gallery q) with
        | none => none
        | some (u, c) => if ct ≤ c then some (u, c) else none := by
      rw [find_best_match, if_neg hg]
    have hinv := buildPool_inv mt gallery q
    have hpos := buildPool_pos mt gallery q
    cases hpool : buildPool mt gallery q with
    | nil =>
        have hsel : selectBest (buildPool mt gallery q) = none := by
          rw [hpool]
          rfl
        have hnone : find_best_match mt ct gallery q = none := by
          rw [hfbm, hsel]
        have hnom : ∀ v, ¬ has_matching_entry mt gallery q v := by
          intro v hv
          have hvne := (has_matching_entry_iff mt gallery q v).mp hv
          obtain ⟨c, hc⟩ := (hinv.2.1 v).mpr hvne
          rw [hpool] at hc
          exact List.not_mem_nil _ hc
        refine ⟨fun _ => hnone, ?_, fun _ => hnone, fun _ => hnone, ?_⟩
        · intro u c h
          rw [hnone] at h
          exact Option.noConfusion h
        · intro u hu _ _
          exact absurd hu (hnom u)
    | cons ph pt =>
        have hnel : buildPool mt gallery q ≠ [] := by
          rw [hpool]
          exact List.cons_ne_nil ph pt
        obtain ⟨p, hpmem, hsel, hpmax⟩ := selectBest_spec (buildPool mt gallery q) hpos hnel
        obtain ⟨pu, pc⟩ := p
        have hppooled : pooled_confidence mt gallery q pu = pc :=
          pooled_confidence_of_mem_pool mt gallery q pu pc hpmem
        have hphas : has_matching_entry mt gallery q pu := by
          rw [has_matching_entry_iff]
          exact (hinv.2.1 pu).mp ⟨pc, hpmem⟩
        have hallle : ∀ v, has_matching_entry mt gallery q v →
            pooled_confidence mt gallery q v ≤ pc := by
          intro v hv
          obtain ⟨cv, hcv⟩ :=
            (hinv.2.1 v).mpr ((has_matching_entry_iff mt gallery q v).mp hv)
          rw [pooled_confidence_of_mem_pool mt gallery q v cv hcv]
          exact hpmax (v, cv) hcv
        by_cases hct : ct ≤ pc
        · have hsome : find_best_match mt ct gallery q = some (pu, pc) := by
            rw [hfbm, hsel]
            simp only [if_pos hct]
          refine ⟨fun h => absurd h hg, ?_, ?_, ?_, ?_⟩
          · intro u c h
            rw [hsome] at h
            have h' := Option.some.inj h
            have hu : pu = u := congrArg Prod.fst h'
            have hc : pc = c := congrArg Prod.snd h'
            subst hu
            subst hc
            exact ⟨hphas, hppooled, hallle, hct⟩
          · intro hnom
            exact absurd hphas (hnom pu)
          · intro hlt
            have hx := hlt pu hphas
            rw [hppooled] at hx
            exact absurd hct (not_le.mpr hx)
          · intro u hu hctu hmaxu
            have h1 : pooled_confidence mt gallery q u ≤ pc := hallle u hu
            have h2 : pc ≤ pooled_confidence mt gallery q u := by
              rw [← hppooled]
              exact hmaxu pu hphas
            have heq : pooled_confidence mt gallery q u = pc := le_antisymm h1 h2
            refine ⟨pu, hphas, ?_, ?_⟩
            · rw [hppooled, heq]
            · rw [hsome, heq]
        · have hnone : find_best_match mt ct gallery q = none := by
            rw [hfbm, hsel]
            simp only [if_neg hct]
          refine ⟨fun _ => hnone, ?_, fun _ => hnone, fun _ => hnone, ?_⟩
          · intro u c h
            rw [hnone] at h
            exact Option.noConfusion h
          · intro u hu hctu hmaxu
            exact absurd (le_trans hctu (hallle u hu)) hct

/-- Claim C2 witness: the empty-gallery branch at the configured
default thresholds. -/
theorem C2_find_best_match_witness :
    find_best_match 0.6 0.85 [] [1] = none :=
  (C2_find_best_match 0.6 0.85 [] [1]).1 rfl

/-! ### Tracker helper lemmas -/

theorem FaceTrack.update_track_id (t : FaceTrack) (b : Bbox) (uid : Option ℕ)
    (un : Option String) (c now : ℚ) : (t.update b uid un c now).track_id = t.track_id := by
  by_cases h : uid.isSome <;> simp [FaceTrack.update, h]

theorem FaceTrack.update_first_seen (t : FaceTrack) (b : Bbox) (uid : Option ℕ)
    (un : Option String) (c now : ℚ) : (t.update b uid un c now).first_seen = t.first_seen := by
  by_cases h : uid.isSome <;> simp [FaceTrack.update, h]

theorem FaceTrack.update_is_lost (t : FaceTrack) (b : Bbox) (uid : Option ℕ)
    (un : Option String) (c now : ℚ) : (t.update b uid un c now).is_lost = false := by
  by_cases h : uid.isSome <;> simp [FaceTrack.update, h]

theorem FaceTrack.mark_lost_track_id (t : FaceTrack) :
    t.mark_lost.track_id = t.track_id := rfl

theorem FaceTrack.mark_lost_first_seen (t : FaceTrack) :
    t.mark_lost.first_seen = t.first_seen := rfl

theorem process_detection_cases (thr now : ℚ) (acc : List FaceTrack × ℕ) (bbox : Bbox)
    (enc : Embedding) (ui : Option UserInfo) :
    (∃ tid, (process_detection thr now acc bbox enc ui).1 =
        acc.1.map (fun t => if t.track_id = tid then
          (match ui with
           | some (uid, uname, conf) => t.update bbox uid uname conf now
           | none => t.update bbox none none 0 now) else t) ∧
      (process_detection thr now acc bbox enc ui).2 = acc.2) ∨
    ((process_detection thr now acc bbox enc ui).1 =
        acc.1 ++ [FaceTrack.make acc.2 enc bbox (ui.getD (none, none, 0)).1
          (ui.getD (none, none, 0)).2.1 (ui.getD (none, none, 0)).2.2 now] ∧
      (process_detection thr now acc bbox enc ui).2 = acc.2 + 1) := by
  rw [process_detection]
  cases h : (find_best_track thr acc.1 bbox enc).1 with
  | some tid => exact Or.inl ⟨tid, rfl, rfl⟩
  | none => exact Or.inr ⟨rfl, rfl⟩

theorem matched_update_track_id (bbox : Bbox) (now : ℚ) (ui : Option UserInfo)
    (tid : ℕ) (t : FaceTrack) :
    ((if t.track_id = tid then
        (match ui with
         | some (uid, uname, conf) => t.update bbox uid uname conf now
         | none => t.update bbox none none 0 now) else t) : FaceTrack).track_id =
      t.track_id := by
  by_cases h : t.track_id = tid
  · rw [if_pos h]
    rcases ui with _ | ⟨uid, uname, conf⟩
    · exact FaceTrack.update_track_id t bbox none none 0 now
    · exact FaceTrack.update_track_id t bbox uid uname conf now
  · rw [if_neg h]

theorem matched_update_first_seen (bbox : Bbox) (now : ℚ) (ui : Option UserInfo)
    (tid : ℕ) (t : FaceTrack) :
    ((if t.track_id = tid then
        (match ui with
         | some (uid, uname, conf) => t.update bbox uid uname conf now
         | none => t.update bbox none none 0 now) else t) : FaceTrack).first_seen =
      t.first_seen := by
  by_cases h : t.track_id = tid
  · rw [if_pos h]
    rcases ui with _ | ⟨uid, uname, conf⟩
    · exact FaceTrack.update_first_seen t bbox none none 0 now
    · exact FaceTrack.update_first_seen t bbox uid uname conf now
  · rw [if_neg h]

theorem matched_update_is_lost (bbox : Bbox) (now : ℚ) (ui : Option UserInfo)
    (tid : ℕ) (t : FaceTrack) (h0 : t.is_lost = false) :
    ((if t.track_id = tid then
        (match ui with
         | some (uid, uname, conf) => t.update bbox uid uname conf now
         | none => t.update bbox none none 0 now) else t) :
      FaceTrack).is_lost = false := by
  by_cases h : t.track_id = tid
  · rw [if_pos h]
    rcases ui with _ | ⟨uid, uname, conf⟩
    · exact FaceTrack.update_is_lost t bbox none none 0 now
    · exact FaceTrack.update_is_lost t bbox uid uname conf now
  · rw [if_neg h]
    exact h0

theorem process_detection_mono (thr now : ℚ) (acc : List FaceTrack × ℕ) (bbox : Bbox)
    (enc : Embedding) (ui : Option UserInfo) :
    acc.2 ≤ (process_detection thr now acc bbox enc ui).2 := by
  rcases process_detection_cases thr now acc bbox enc ui with ⟨tid, _, h2⟩ | ⟨_, h2⟩ <;>
    rw [h2]
  · exact Nat.le_succ _

theorem process_detection_bound (thr now : ℚ) (acc : List FaceTrack × ℕ) (bbox : Bbox)
    (enc : Embedding) (ui : Option UserInfo)
    (hb : ∀ t ∈ acc.1, t.track_id < acc.2) :
    ∀ t' ∈ (process_detection thr now acc bbox enc ui).1,
      t'.track_id < (process_detection thr now acc bbox enc ui).2 := by
  rcases process_detection_cases thr now acc bbox enc ui with ⟨tid, h1, h2⟩ | ⟨h1, h2⟩ <;>
    rw [h1, h2] <;> intro t' ht'
  · rcases List.mem_map.mp ht' with ⟨t, ht, rfl⟩
    rw [matched_update_track_id]
    exact hb t ht
  · rcases List.mem_append.mp ht' with ht' | ht'
    · exact lt_trans (hb t' ht') (Nat.lt_succ_self _)
    · rw [List.mem_singleton.mp ht']
      exact Nat.lt_succ_self _

theorem process_detection_nodup (thr now : ℚ) (acc : List FaceTrack × ℕ) (bbox : Bbox)
    (enc : Embedding) (ui : Option UserInfo)
    (hb : ∀ t ∈ acc.1, t.track_id < acc.2)
    (hnd : (acc.1.map FaceTrack.track_id).Nodup) :
    ((process_detection thr now acc bbox enc ui).1.map FaceTrack.track_id).Nodup := by
  rcases process_detection_cases thr now acc bbox enc ui with ⟨tid, h1, _⟩ | ⟨h1, _⟩ <;>
    rw [h1]
  · rw [List.map_map]
    have : acc.1.map (FaceTrack.track_id ∘ (fun t => if t.track_id = tid then
        (match ui with
         | some (uid, uname, conf) => t.update bbox uid uname conf now
         | none => t.update bbox none none 0 now) else t)) =
        acc.1.map FaceTrack.track_id :=
      List.map_congr_left (fun t _ => matched_update_track_id bbox now ui tid t)
    rw [this]
    exact hnd
  · rw [List.map_append]
    rw [List.nodup_append]
    refine ⟨hnd, List.nodup_singleton _, ?_⟩
    intro a ha hb2
    rcases List.mem_map.mp ha with ⟨t, ht, rfl⟩
    simp only [List.map_cons, List.map_nil, List.mem_singleton] at hb2
    have : t.track_id = acc.2 := by
      rw [hb2]
      rfl
    exact absurd this (Nat.ne_of_lt (hb t ht))

theorem process_detection_prov (thr now : ℚ) (acc : List FaceTrack × ℕ) (bbox : Bbox)
    (enc : Embedding) (ui : Option UserInfo) :
    ∀ t' ∈ (process_detection thr now acc bbox enc ui).1,
      (∃ t ∈ acc.1, t'.track_id = t.track_id ∧ t'.first_seen = t.first_seen) ∨
      t'.track_id = acc.2 := by
  rcases process_detection_cases thr now acc bbox enc ui with ⟨tid, h1, _⟩ | ⟨h1, _⟩ <;>
    rw [h1] <;> intro t' ht'
  · rcases List.mem_map.mp ht' with ⟨t, ht, rfl⟩
    exact Or.inl ⟨t, ht, matched_update_track_id bbox now ui tid t,
      matched_update_first_seen bbox now ui tid t⟩
  · rcases List.mem_append.mp ht' with ht' | ht'
    · exact Or.inl ⟨t', ht', rfl, rfl⟩
    · rw [List.mem_singleton.mp ht']
      exact Or.inr rfl

theorem process_detection_pres (thr now : ℚ) (acc : List FaceTrack × ℕ) (bbox : Bbox)
    (enc : Embedding) (ui : Option UserInfo) (i : ℕ) (s : ℚ)
    (h : ∃ t ∈ acc.1, t.track_id = i ∧ t.first_seen = s ∧ t.is_lost = false) :
    ∃ t' ∈ (process_detection thr now acc bbox enc ui).1,
      t'.track_id = i ∧ t'.first_seen = s ∧ t'.is_lost = false := by
  obtain ⟨t, ht, hid, hfs, hlost⟩ := h
  rcases process_detection_cases thr now acc bbox enc ui with ⟨tid, h1, _⟩ | ⟨h1, _⟩ <;>
    rw [h1]
  · refine ⟨_, List.mem_map_of_mem _ ht, ?_, ?_, ?_⟩
    · exact (matched_update_track_id bbox now ui tid t).trans hid
    · exact (matched_update_first_seen bbox now ui tid t).trans hfs
    · exact matched_update_is_lost bbox now ui tid t hlost
  · exact ⟨t, List.mem_append_left _ ht, hid, hfs, hlost⟩

theorem detections_foldl_inv (thr now : ℚ) (ru : List (Option UserInfo)) :
    ∀ (dets : List (ℕ × Bbox × Embedding)) (acc r : List FaceTrack × ℕ),
      dets.foldl (fun acc det =>
        process_detection thr now acc det.2.1 det.2.2 (ru.getD det.1 none)) acc = r →
      (∀ t ∈ acc.1, t.track_id < acc.2) →
      (∀ t ∈ r.1, t.track_id < r.2) ∧
      acc.2 ≤ r.2 ∧
      ((acc.1.map FaceTrack.track_id).Nodup → (r.1.map FaceTrack.track_id).Nodup) ∧
      (∀ t' ∈ r.1,
        (∃ t ∈ acc.1, t'.track_id = t.track_id ∧ t'.first_seen = t.first_seen) ∨
        acc.2 ≤ t'.track_id) := by
  intro dets
  induction dets with
  | nil =>
      intro acc r hr hb
      rw [List.foldl_nil] at hr
      subst hr
      exact ⟨hb, le_refl _, fun h => h, fun t' ht' => Or.inl ⟨t', ht', rfl, rfl⟩⟩
  | cons d ds ih =>
      intro acc r hr hb
      rw [List.foldl_cons] at hr
      have hb' : ∀ t ∈ (process_detection thr now acc d.2.1 d.2.2 (ru.getD d.1 none)).1,
          t.track_id < (process_detection thr now acc d.2.1 d.2.2 (ru.getD d.1 none)).2 :=
        process_detection_bound thr now acc d.2.1 d.2.2 (ru.getD d.1 none) hb
      obtain ⟨ih1, ih2, ih3, ih4⟩ :=
        ih (process_detection thr now acc d.2.1 d.2.2 (ru.getD d.1 none)) r hr hb'
      refine ⟨ih1, le_trans (process_detection_mono thr now acc d.2.1 d.2.2 _) ih2,
        fun hnd => ih3 (process_detection_nodup thr now acc d.2.1 d.2.2 _ hb hnd), ?_⟩
      intro t' ht'
      rcases ih4 t' ht' with ⟨t, ht, hid, hfs⟩ | hge
      · rcases process_detection_prov thr now acc d.2.1 d.2.2 (ru.getD d.1 none) t ht with
          ⟨t0, ht0, hid0, hfs0⟩ | heq
        · exact Or.inl ⟨t0, ht0, hid.trans hid0, hfs.trans hfs0⟩
        · exact Or.inr (by rw [hid, heq])
      · exact Or.inr (le_trans (process_detection_mono thr now acc d.2.1 d.2.2 _) hge)

theorem detections_foldl_pres (thr now : ℚ) (ru : List (Option UserInfo)) (i : ℕ) (s : ℚ) :
    ∀ (dets : List (ℕ × Bbox × Embedding)) (acc r : List FaceTrack × ℕ),
      dets.foldl (fun acc det =>
        process_detection thr now acc det.2.1 det.2.2 (ru.getD det.1 none)) acc = r →
      (∃ t ∈ acc.1, t.track_id = i ∧ t.first_seen = s ∧ t.is_lost = false) →
      ∃ t' ∈ r.1, t'.track_id = i ∧ t'.first_seen = s ∧ t'.is_lost = false := by
  intro dets
  induction dets with
  | nil =>
      intro acc r hr h
      rw [List.foldl_nil] at hr
      subst hr
      exact h
  | cons d ds ih =>
      intro acc r hr h
      rw [List.foldl_cons] at hr
      exact ih _ r hr (process_detection_pres thr now acc d.2.1 d.2.2 (ru.getD d.1 none) i s h)

theorem update_tracks_fst_tracks (st : FaceTrackingService) (now : ℚ) (locs : List Bbox)
    (encs : List Embedding) (rec : Option (List (Option UserInfo))) :
    (update_tracks st now locs encs rec).1.tracks =
      cleanup_tracks st.max_track_age st.max_time_since_last_seen now
        (((locs.zip encs).enum).foldl
          (fun acc det => process_detection st.iou_threshold now acc det.2.1 det.2.2
            ((rec.getD (List.replicate locs.length none)).getD det.1 none))
          (st.tracks.map FaceTrack.mark_lost, st.next_track_id)).1 := rfl

theorem update_tracks_fst_next (st : FaceTrackingService) (now : ℚ) (locs : List Bbox)
    (encs : List Embedding) (rec : Option (List (Option UserInfo))) :
    (update_tracks st now locs encs rec).1.next_track_id =
      (((locs.zip encs).enum).foldl
        (fun acc det => process_detection st.iou_threshold now acc det.2.1 det.2.2
          ((rec.getD (List.replicate locs.length none)).getD det.1 none))
        (st.tracks.map FaceTrack.mark_lost, st.next_track_id)).2 := rfl

theorem update_tracks_snd (st : FaceTrackingService) (now : ℚ) (locs : List Bbox)
    (encs : List Embedding) (rec : Option (List (Option UserInfo))) :
    (update_tracks st now locs encs rec).2 =
      (update_tracks st now locs encs rec).1.tracks.filter (fun t => !t.is_lost) := rfl

theorem get_active_tracks_fst (st : FaceTrackingService) (now : ℚ) :
    (get_active_tracks st now).1.tracks =
      cleanup_tracks st.max_track_age st.max_time_since_last_seen now st.tracks := rfl

theorem get_active_tracks_snd (st : FaceTrackingService) (now : ℚ) :
    (get_active_tracks st now).2 =
      (get_active_tracks st now).1.tracks.filter (fun t => !t.is_lost) := rfl

theorem mem_cleanup_iff (a b now : ℚ) (l : List FaceTrack) (t : FaceTrack) :
    t ∈ cleanup_tracks a b now l ↔
      t ∈ l ∧ ¬(a < now - t.first_seen) ∧
        ¬(t.is_lost = true ∧ b < now - t.last_seen) := by
  rw [cleanup_tracks, List.mem_filter]
  constructor
  · rintro ⟨hmem, hcond⟩
    refine ⟨hmem, ?_, ?_⟩
    · intro hage
      rw [decide_eq_true hage] at hcond
      simp at hcond
    · rintro ⟨hl, hb⟩
      rw [hl, decide_eq_true hb] at hcond
      simp at hcond
  · rintro ⟨hmem, hage, hlost⟩
    refine ⟨hmem, ?_⟩
    rw [decide_eq_false hage]
    cases hl : t.is_lost with
    | false => simp
    | true =>
        rw [decide_eq_false (fun hb2 => hlost ⟨hl, hb2⟩)]
        simp

/-- Claim C1 (refuted by the code, code-bug evidence): `update_tracks`
marks every existing track lost and then skips lost tracks in the
association loop, so a second call with the identical detection does not
re-associate it with track "1": it creates and returns a fresh track
"2", while the lost track "1" lingers in the track set. Run: a fresh
tracker with the source defaults (6.0, 1.0, 0.3), the same detection
(bbox (0,10,10,0), embedding [1]) at t = 0 and t = 0.1 s. -/
theorem C1_second_call_creates_new_track :
    ((update_tracks (FaceTrackingService.make 6 1 (3/10)) 0
        [⟨0, 10, 10, 0⟩] [[1]] none).2.map FaceTrack.track_id = [1]) ∧
    ((update_tracks (update_tracks (FaceTrackingService.make 6 1 (3/10)) 0
          [⟨0, 10, 10, 0⟩] [[1]] none).1 (1/10)
        [⟨0, 10, 10, 0⟩] [[1]] none).2.map FaceTrack.track_id = [2]) ∧
    ((update_tracks (update_tracks (FaceTrackingService.make 6 1 (3/10)) 0
          [⟨0, 10, 10, 0⟩] [[1]] none).1 (1/10)
        [⟨0, 10, 10, 0⟩] [[1]] none).1.tracks.map FaceTrack.track_id = [1, 2]) := by
  refine ⟨?_, ?_, ?_⟩ <;>
    norm_num [update_tracks, FaceTrackingService.make, process_detection, find_best_track,
      cleanup_tracks, FaceTrack.make, FaceTrack.mark_lost, FaceTrack.update,
      List.zip, List.zipWith, List.enum, List.enumFrom, List.filter]

/-- Claim C8: a track whose age `now - first_seen` exceeds
`max_track_age` is removed by the clean-up step of the next
`update_tracks` or `get_active_tracks` call — no track with its id is
in the resulting track set or the returned list, whatever the
detections of the current frame are (so even if it would have been
matched). The id-uniqueness hypotheses are the tracker invariants
established by claim C9. -/
theorem C8_overage_track_evicted (st : FaceTrackingService) (now : ℚ) (t : FaceTrack)
    (locs : List Bbox) (encs : List Embedding) (rec : Option (List (Option UserInfo)))
    (hmem : t ∈ st.tracks)
    (hage : st.max_track_age < now - t.first_seen)
    (hbound : ∀ u ∈ st.tracks, u.track_id < st.next_track_id)
    (hnd : (st.tracks.map FaceTrack.track_id).Nodup) :
    (∀ u ∈ (update_tracks st now locs encs rec).1.tracks, u.track_id ≠ t.track_id) ∧
    (∀ u ∈ (update_tracks st now locs encs rec).2, u.track_id ≠ t.track_id) ∧
    (∀ u ∈ (get_active_tracks st now).1.tracks, u.track_id ≠ t.track_id) ∧
    (∀ u ∈ (get_active_tracks st now).2, u.track_id ≠ t.track_id) := by
  have hbm : ∀ x ∈ st.tracks.map FaceTrack.mark_lost, x.track_id < st.next_track_id := by
    intro x hx
    rcases List.mem_map.mp hx with ⟨t0, ht0, rfl⟩
    rw [FaceTrack.mark_lost_track_id]
    exact hbound t0 ht0
  have hupd : ∀ u ∈ (update_tracks st now locs encs rec).1.tracks,
      u.track_id ≠ t.track_id := by
    intro u hu hid
    rw [update_tracks_fst_tracks] at hu
    rw [mem_cleanup_iff] at hu
    obtain ⟨hu1, hu2, _⟩ := hu
    obtain ⟨_, _, _, hprov⟩ := detections_foldl_inv st.iou_threshold now
      (rec.getD (List.replicate locs.length none)) ((locs.zip encs).enum)
      (st.tracks.map FaceTrack.mark_lost, st.next_track_id) _ rfl hbm
    rcases hprov u hu1 with ⟨m, hm, hid2, hfs2⟩ | hge
    · rcases List.mem_map.mp hm with ⟨t0, ht0, rfl⟩
      have ht0id : t0.track_id = t.track_id := by
        rw [← FaceTrack.mark_lost_track_id t0, ← hid2, hid]
      have ht0t : t0 = t := List.inj_on_of_nodup_map hnd ht0 hmem ht0id
      have hufs : u.first_seen = t.first_seen := by
        rw [hfs2, FaceTrack.mark_lost_first_seen, ht0t]
      exact hu2 (by rw [hufs]; exact hage)
    · exact absurd (hid ▸ hge) (not_le.mpr (hbound t hmem))
  have hact : ∀ u ∈ (get_active_tracks st now).1.tracks, u.track_id ≠ t.track_id := by
    intro u hu hid
    rw [get_active_tracks_fst, mem_cleanup_iff] at hu
    obtain ⟨hu1, hu2, _⟩ := hu
    have hut : u = t := List.inj_on_of_nodup_map hnd hu1 hmem hid
    rw [hut] at hu2
    exact hu2 hage
  refine ⟨hupd, ?_, hact, ?_⟩
  · intro u hu
    rw [update_tracks_snd] at hu
    exact hupd u (List.mem_filter.mp hu).1
  · intro u hu
    rw [get_active_tracks_snd] at hu
    exact hact u (List.mem_filter.mp hu).1

/-- Claim C8 witness: a concrete tracker state with one 7-second-old
track (`max_track_age` 6.0) is evicted; specialised to the returned
list of `get_active_tracks`, which cannot contain id 1. -/
theorem C8_overage_track_evicted_witness :
    (1 : ℕ) ∉ (get_active_tracks
      { tracks := [FaceTrack.make 1 [1] ⟨0, 10, 10, 0⟩ none none 0 0]
        next_track_id := 2
        max_track_age := 6
        max_time_since_last_seen := 1
        iou_threshold := 3/10 } 7).2.map FaceTrack.track_id := by
  intro hmem1
  rcases List.mem_map.mp hmem1 with ⟨u, hu, huid⟩
  exact (C8_overage_track_evicted
    { tracks := [FaceTrack.make 1 [1] ⟨0, 10, 10, 0⟩ none none 0 0]
      next_track_id := 2
      max_track_age := 6
      max_time_since_last_seen := 1
      iou_threshold := 3/10 } 7
    (FaceTrack.make 1 [1] ⟨0, 10, 10, 0⟩ none none 0 0) [] [] none
    (List.mem_singleton.mpr rfl)
    (by norm_num [FaceTrack.make])
    (by
      intro u hu
      rw [List.mem_singleton.mp hu]
      norm_num [FaceTrack.make])
    (by simp [FaceTrack.make])).2.2.2 u hu huid

theorem process_detection_empty (thr now : ℚ) (n : ℕ) (bbox : Bbox) (enc : Embedding)
    (ui : Option UserInfo) :
    process_detection thr now ([], n) bbox enc ui =
      ([FaceTrack.make n enc bbox (ui.getD (none, none, 0)).1 (ui.getD (none, none, 0)).2.1
          (ui.getD (none, none, 0)).2.2 now], n + 1) := rfl

theorem reachable_alloc_inv (st : FaceTrackingService) (hst : Reachable st) :
    ∃ alloc : List ℕ, ReachableAlloc st alloc ∧
      alloc.Sorted (· < ·) ∧
      (∀ i ∈ alloc, 1 ≤ i ∧ i < st.next_track_id) ∧
      (∀ t ∈ st.tracks, t.track_id ∈ alloc) ∧
      (st.tracks.map FaceTrack.track_id).Nodup ∧
      (∀ t ∈ st.tracks, t.track_id < st.next_track_id) ∧
      1 ≤ st.next_track_id := by
  induction hst with
  | mk_service a b c =>
      exact ⟨[], ReachableAlloc.mk_service a b c, List.sorted_nil,
        fun i hi => absurd hi (List.not_mem_nil i),
        fun t ht => absurd ht (List.not_mem_nil t),
        List.nodup_nil, fun t ht => absurd ht (List.not_mem_nil t), le_refl 1⟩
  | update st0 now locs encs rec h ih =>
      obtain ⟨alloc0, hra, hsort, hbnd, hcover, ih1, ih2, ih3⟩ := ih
      have hbm : ∀ x ∈ st0.tracks.map FaceTrack.mark_lost,
          x.track_id < st0.next_track_id := by
        intro x hx
        rcases List.mem_map.mp hx with ⟨t0, ht0, rfl⟩
        rw [FaceTrack.mark_lost_track_id]
        exact ih2 t0 ht0
      obtain ⟨f1, f2, f3, hprov⟩ := detections_foldl_inv st0.iou_threshold now
        (rec.getD (List.replicate locs.length none)) ((locs.zip encs).enum)
        (st0.tracks.map FaceTrack.mark_lost, st0.next_track_id) _ rfl hbm
      have hmm : (st0.tracks.map FaceTrack.mark_lost).map FaceTrack.track_id =
          st0.tracks.map FaceTrack.track_id := by
        rw [List.map_map]
        exact List.map_congr_left (fun t _ => rfl)
      have hsub : ((update_tracks st0 now locs encs rec).1.tracks).Sublist
          ((((locs.zip encs).enum).foldl
            (fun acc det => process_detection st0.iou_threshold now acc det.2.1 det.2.2
              ((rec.getD (List.replicate locs.length none)).getD det.1 none))
            (st0.tracks.map FaceTrack.mark_lost, st0.next_track_id)).1) := by
        rw [update_tracks_fst_tracks]
        exact List.filter_sublist _
      have hmono : st0.next_track_id ≤
          (update_tracks st0 now locs encs rec).1.next_track_id := by
        rw [update_tracks_fst_next]
        exact f2
      have hrng : ∀ i : ℕ,
          i ∈ List.range' st0.next_track_id
            ((update_tracks st0 now locs encs rec).1.next_track_id - st0.next_track_id) ↔
          (st0.next_track_id ≤ i ∧
            i < (update_tracks st0 now locs encs rec).1.next_track_id) := by
        intro i
        rw [List.mem_range'_1, Nat.add_sub_cancel' hmono]
      have hlt : ∀ t ∈ (update_tracks st0 now locs encs rec).1.tracks,
          t.track_id < (update_tracks st0 now locs encs rec).1.next_track_id := by
        intro t ht
        rw [update_tracks_fst_next]
        exact f1 t (List.Sublist.mem ht hsub)
      refine ⟨alloc0 ++ List.range' st0.next_track_id
          ((update_tracks st0 now locs encs rec).1.next_track_id - st0.next_track_id),
        ReachableAlloc.update st0 now locs encs rec alloc0 hra, ?_, ?_, ?_, ?_, ?_, ?_⟩
      · rw [List.Sorted, List.pairwise_append]
        refine ⟨hsort, List.pairwise_lt_range' _ _, ?_⟩
        intro a ha b hb
        exact lt_of_lt_of_le (hbnd a ha).2 ((hrng b).mp hb).1
      · intro i hi
        rcases List.mem_append.mp hi with hi | hi
        · exact ⟨(hbnd i hi).1, lt_of_lt_of_le (hbnd i hi).2 hmono⟩
        · exact ⟨le_trans ih3 ((hrng i).mp hi).1, ((hrng i).mp hi).2⟩
      · intro t ht
        have htlt := hlt t ht
        rw [update_tracks_fst_tracks, mem_cleanup_iff] at ht
        obtain ⟨ht1, -, -⟩ := ht
        rcases hprov t ht1 with ⟨m, hm, hid, -⟩ | hge
        · rcases List.mem_map.mp hm with ⟨t0, ht0, rfl⟩
          refine List.mem_append_left _ ?_
          have hidt : t.track_id = t0.track_id := by
            rw [hid, FaceTrack.mark_lost_track_id]
          rw [hidt]
          exact hcover t0 ht0
        · exact List.mem_append_right _ ((hrng t.track_id).mpr ⟨hge, htlt⟩)
      · exact List.Nodup.sublist (List.Sublist.map FaceTrack.track_id hsub)
          (f3 (by rw [hmm]; exact ih1))
      · exact hlt
      · exact le_trans ih3 hmono
  | active st0 now h ih =>
      obtain ⟨alloc0, hra, hsort, hbnd, hcover, ih1, ih2, ih3⟩ := ih
      have hsub : ((get_active_tracks st0 now).1.tracks).Sublist st0.tracks := by
        rw [get_active_tracks_fst]
        exact List.filter_sublist _
      exact ⟨alloc0, ReachableAlloc.active st0 now alloc0 hra, hsort,
        fun i hi => hbnd i hi,
        fun t ht => hcover t (List.Sublist.mem ht hsub),
        List.Nodup.sublist (List.Sublist.map _ hsub) ih1,
        fun t ht => ih2 t (List.Sublist.mem ht hsub), ih3⟩
  | reset_state st0 h ih =>
      obtain ⟨alloc0, hra, -⟩ := ih
      exact ⟨[], ReachableAlloc.reset_state st0 alloc0 hra, List.sorted_nil,
        fun i hi => absurd hi (List.not_mem_nil i),
        fun t ht => absurd ht (List.not_mem_nil t),
        List.nodup_nil, fun t ht => absurd ht (List.not_mem_nil t), le_refl 1⟩

/-- Claim C9: every reachable tracker state carries an allocation
history `alloc` (the track ids handed out since the last reset, in
order). That history is strictly increasing — no id is ever reused
within a session — every allocated id is at least 1 and below the
session counter, all live ids come from the history and are pairwise
distinct, the counter never drops below 1, `update_tracks` never
decreases the counter (`get_active_tracks` preserves it) and hands
every genuinely new track an id at or above the current counter and
below the new one, hence strictly greater than every id allocated
since the last reset (and than every live id); `reset` empties the
track set and restarts the counter at 1, and the first track created
after a reset receives track id 1. -/
theorem C9_monotone_session_ids (st : FaceTrackingService) (hst : Reachable st) :
    ∃ alloc : List ℕ,
      ReachableAlloc st alloc ∧
      alloc.Sorted (· < ·) ∧
      (∀ i ∈ alloc, 1 ≤ i ∧ i < st.next_track_id) ∧
      (∀ t ∈ st.tracks, t.track_id ∈ alloc) ∧
      (st.tracks.map FaceTrack.track_id).Nodup ∧
      (∀ t ∈ st.tracks, t.track_id < st.next_track_id) ∧
      1 ≤ st.next_track_id ∧
      (∀ (now : ℚ) (locs : List Bbox) (encs : List Embedding)
          (rec : Option (List (Option UserInfo))),
        st.next_track_id ≤ (update_tracks st now locs encs rec).1.next_track_id ∧
        (get_active_tracks st now).1.next_track_id = st.next_track_id ∧
        ∀ t' ∈ (update_tracks st now locs encs rec).1.tracks,
          t'.track_id ∈ st.tracks.map FaceTrack.track_id ∨
          (st.next_track_id ≤ t'.track_id ∧
            t'.track_id < (update_tracks st now locs encs rec).1.next_track_id ∧
            (∀ i ∈ alloc, i < t'.track_id) ∧
            (∀ t ∈ st.tracks, t.track_id < t'.track_id))) ∧
      ((reset st).tracks = [] ∧ (reset st).next_track_id = 1) ∧
      (∀ (now : ℚ) (locs : List Bbox) (encs : List Embedding)
          (rec : Option (List (Option UserInfo))),
        0 ≤ st.max_track_age → locs ≠ [] → encs ≠ [] →
        (1 : ℕ) ∈ (update_tracks (reset st) now locs encs rec).1.tracks.map
          FaceTrack.track_id) := by
  obtain ⟨alloc, hra, hsort, hbnd, hcover, h1, h2, h3⟩ := reachable_alloc_inv st hst
  refine ⟨alloc, hra, hsort, hbnd, hcover, h1, h2, h3, ?_, ⟨rfl, rfl⟩, ?_⟩
  · intro now locs encs rec
    have hbm : ∀ x ∈ st.tracks.map FaceTrack.mark_lost,
        x.track_id < st.next_track_id := by
      intro x hx
      rcases List.mem_map.mp hx with ⟨t0, ht0, rfl⟩
      rw [FaceTrack.mark_lost_track_id]
      exact h2 t0 ht0
    obtain ⟨f1, f2, -, hprov⟩ := detections_foldl_inv st.iou_threshold now
      (rec.getD (List.replicate locs.length none)) ((locs.zip encs).enum)
      (st.tracks.map FaceTrack.mark_lost, st.next_track_id) _ rfl hbm
    have hmono : st.next_track_id ≤
        (update_tracks st now locs encs rec).1.next_track_id := by
      rw [update_tracks_fst_next]
      exact f2
    refine ⟨hmono, rfl, ?_⟩
    intro t' ht'
    rw [update_tracks_fst_tracks, mem_cleanup_iff] at ht'
    obtain ⟨ht1, -, -⟩ := ht'
    have hlt' : t'.track_id < (update_tracks st now locs encs rec).1.next_track_id := by
      rw [update_tracks_fst_next]
      exact f1 t' ht1
    rcases hprov t' ht1 with ⟨m, hm, hid, -⟩ | hge
    · left
      rcases List.mem_map.mp hm with ⟨t0, ht0, rfl⟩
      refine List.mem_map.mpr ⟨t0, ht0, ?_⟩
      rw [hid, FaceTrack.mark_lost_track_id]
    · right
      refine ⟨hge, hlt', ?_, ?_⟩
      · intro i hi
        exact lt_of_lt_of_le (hbnd i hi).2 hge
      · intro t ht
        exact lt_of_lt_of_le (h2 t ht) hge
  · intro now locs encs rec hage hlocs hencs
    cases locs with
    | nil => exact absurd rfl hlocs
    | cons l0 ls =>
        cases encs with
        | nil => exact absurd rfl hencs
        | cons e0 es =>
            rw [update_tracks_fst_tracks]
            have henum : (((l0 :: ls).zip (e0 :: es)).enum) =
                (0, (l0, e0)) :: ((ls.zip es).enumFrom 1) := rfl
            rw [henum, List.foldl_cons]
            have hstep : process_detection (reset st).iou_threshold now
                (List.map FaceTrack.mark_lost (reset st).tracks, (reset st).next_track_id)
                (0, l0, e0).2.1 (0, l0, e0).2.2
                ((rec.getD (List.replicate (l0 :: ls).length none)).getD (0, l0, e0).1 none) =
                ([FaceTrack.make 1 e0 l0
                    (((rec.getD (List.replicate (l0 :: ls).length none)).getD 0 none).getD
                      (none, none, 0)).1
                    (((rec.getD (List.replicate (l0 :: ls).length none)).getD 0 none).getD
                      (none, none, 0)).2.1
                    (((rec.getD (List.replicate (l0 :: ls).length none)).getD 0 none).getD
                      (none, none, 0)).2.2 now], 2) :=
              process_detection_empty (reset st).iou_threshold now 1 l0 e0 _
            rw [hstep]
            obtain ⟨t', ht', hid, hfs, hlost⟩ := detections_foldl_pres
              (reset st).iou_threshold now
              (rec.getD (List.replicate (l0 :: ls).length none)) 1 now
              ((ls.zip es).enumFrom 1)
              ([FaceTrack.make 1 e0 l0
                  (((rec.getD (List.replicate (l0 :: ls).length none)).getD 0 none).getD
                    (none, none, 0)).1
                  (((rec.getD (List.replicate (l0 :: ls).length none)).getD 0 none).getD
                    (none, none, 0)).2.1
                  (((rec.getD (List.replicate (l0 :: ls).length none)).getD 0 none).getD
                    (none, none, 0)).2.2 now], 2) _ rfl
              ⟨_, List.mem_singleton.mpr rfl, rfl, rfl, rfl⟩
            refine List.mem_map.mpr ⟨t', ?_, hid⟩
            rw [mem_cleanup_iff]
            refine ⟨ht', ?_, ?_⟩
            · rw [hfs, sub_self]
              exact not_lt.mpr hage
            · intro hc
              exact Bool.false_ne_true (hlost ▸ hc.1)

/-- Claim C9 witness: the reset/first-id clauses at a fresh tracker
with the source defaults. -/
theorem C9_monotone_session_ids_witness :
    ((reset (FaceTrackingService.make 6 1 (3/10))).tracks = [] ∧
      (reset (FaceTrackingService.make 6 1 (3/10))).next_track_id = 1) ∧
    (1 : ℕ) ∈ (update_tracks (reset (FaceTrackingService.make 6 1 (3/10))) 0
      [⟨0, 10, 10, 0⟩] [[1]] none).1.tracks.map FaceTrack.track_id := by
  obtain ⟨alloc, -, -, -, -, -, -, -, -, hreset, hfirst⟩ :=
    C9_monotone_session_ids (FaceTrackingService.make 6 1 (3/10))
      (Reachable.mk_service 6 1 (3/10))
  exact ⟨hreset, hfirst 0 [⟨0, 10, 10, 0⟩] [[1]] none
    (by norm_num [FaceTrackingService.make])
    (List.cons_ne_nil _ _) (List.cons_ne_nil _ _)⟩

end Theorems

end DFace
